import Mathlib

/-!
Verification of the RTZ segment codec scripts.

Shallow embedding of the Python sources:
  * scripts/translation/inject_rtz_translations.py  (resizing encoder)
  * scripts/extraction/extract_rtz_filtered.py      (scanner, classifier, fixed-slot patcher)
  * scripts/analysis/decompress_fighter_info.py     (gated scanner)

Buffers are `List Nat` of byte values (< 256 where it matters, stated as a
hypothesis when a proof needs it).  Python strings are `List Char`.
Fallible Python code (struct.pack range errors caught by the caller's
try/except) is modelled with `Option`.  Python's float comparison
`japanese_chars / total_chars >= 0.3` is modelled as the exact rational
comparison `3 * total ≤ 10 * japanese`; the two agree for every count
below 10^15, far beyond any buffer here.
-/

namespace RTZ

/-- Python `bytes`/`str` slice `data[a:b]` (for the in-bound, `a ≤ b` uses
in these scripts). -/
def pySlice (data : List Nat) (a b : Nat) : List Nat :=
  (data.take b).drop a

/-- Python `str.isspace` / `\s` class: the Unicode whitespace characters. -/
def pyIsSpace (c : Char) : Bool :=
  let u := c.toNat
  (9 ≤ u && u ≤ 13) || u == 32 || (28 ≤ u && u ≤ 31) || u == 0x85 || u == 0xA0 ||
  u == 0x1680 || (0x2000 ≤ u && u ≤ 0x200A) || u == 0x2028 || u == 0x2029 ||
  u == 0x202F || u == 0x205F || u == 0x3000

/-- Python `str.strip()`: drop whitespace from both ends. -/
def pyStrip (l : List Char) : List Char :=
  ((l.dropWhile pyIsSpace).reverse.dropWhile pyIsSpace).reverse

/-- UTF-16LE encoding of a string, as Python `str.encode("utf-16le")`:
two bytes per BMP character, a four-byte surrogate pair otherwise. -/
def utf16leBytes (l : List Char) : List Nat :=
  (l.map fun c =>
    let u := c.toNat
    if u < 0x10000 then [u % 256, u / 256]
    else
      let v := u - 0x10000
      let hi := 0xD800 + v / 0x400
      let lo := 0xDC00 + v % 0x400
      [hi % 256, hi / 256, lo % 256, lo / 256]).flatten

/-- Read a byte list as little-endian 16-bit code units; a trailing odd
byte is dropped (as `errors="ignore"` does). -/
def utf16Units : List Nat → List Nat
  | b0 :: b1 :: rest => (b0 + 256 * b1) :: utf16Units rest
  | _ => []

/-- Decode a UTF-16 code-unit list with `errors="ignore"`: well-formed
surrogate pairs yield one astral character, lone surrogates are
dropped. -/
def decodeUnits : List Nat → List Char
  | [] => []
  | [u] =>
    if (0xD800 ≤ u ∧ u ≤ 0xDBFF) ∨ (0xDC00 ≤ u ∧ u ≤ 0xDFFF) then []
    else [Char.ofNat u]
  | u :: u2 :: rest =>
    if 0xD800 ≤ u ∧ u ≤ 0xDBFF then
      if 0xDC00 ≤ u2 ∧ u2 ≤ 0xDFFF then
        Char.ofNat (0x10000 + (u - 0xD800) * 0x400 + (u2 - 0xDC00)) ::
          decodeUnits rest
      else
        decodeUnits (u2 :: rest)
    else if 0xDC00 ≤ u ∧ u ≤ 0xDFFF then
      decodeUnits (u2 :: rest)
    else
      Char.ofNat u :: decodeUnits (u2 :: rest)

def utf16leDecode (l : List Nat) : List Char :=
  decodeUnits (utf16Units l)

/-- Python substring test `pat in hay`. -/
def containsSub {α : Type} [DecidableEq α] (hay pat : List α) : Bool :=
  if pat.isPrefixOf hay then true
  else
    match hay with
    | [] => false
    | _ :: t => containsSub t pat

/-! ## inject_rtz_translations.py -/

/-- `self.TERMINATOR = b'\xFF\xFF\xFF\xFF\x00'` -/
def TERMINATOR : List Nat := [255, 255, 255, 255, 0]

/-- U+2020, the private newline marker `†`. -/
def dagger : Char := '†'

/-- `RTZInjector.encode_text_segment`.  Empty text returns `b''`.
Otherwise newlines become `†`, the text is UTF-16LE encoded, and the
record is 4 zero bytes, the unit count, then the payload.
`struct.pack('B', n)` raises `struct.error` for `n > 255`; that raise is
modelled as `none` (the caller catches all exceptions). -/
def encode_text_segment (text : List Char) : Option (List Nat) :=
  if text = [] then some []
  else
    let t := text.map fun c => if c = '\n' then dagger else c
    let utf16_bytes := utf16leBytes t
    let utf16_length := utf16_bytes.length / 2
    if utf16_length ≤ 255 then
      some ([0, 0, 0, 0] ++ [utf16_length] ++ utf16_bytes)
    else
      none

/-- `RTZInjector.find_text_segments`: returns the list of
`(prefix_pos, content_start, content_end)` triples.  At each position:
stop at the terminator, read the length byte at `pos+4`, stop if the
content window overruns the buffer, otherwise register the segment and
continue from `content_end`. -/
def find_text_segments (data : List Nat) (pos : Nat) : List (Nat × Nat × Nat) :=
  if _h5 : pos + 5 ≤ data.length then
    if pySlice data pos (pos + 5) = TERMINATOR then []
    else
      let len := data.getD (pos + 4) 0
      let content_end := pos + 5 + 2 * len
      if _hce : content_end ≤ data.length then
        (pos, pos + 5, content_end) :: find_text_segments data content_end
      else []
  else []
termination_by data.length - pos
decreasing_by omega

/-- The positions visited by `find_text_segments`' scan loop, ending with
the position at which the loop stopped. -/
def scanPositions (data : List Nat) (pos : Nat) : List Nat :=
  if _h5 : pos + 5 ≤ data.length then
    if pySlice data pos (pos + 5) = TERMINATOR then [pos]
    else
      let len := data.getD (pos + 4) 0
      let content_end := pos + 5 + 2 * len
      if _hce : content_end ≤ data.length then
        pos :: scanPositions data content_end
      else [pos]
  else [pos]
termination_by data.length - pos
decreasing_by omega

/-- The per-segment body of `inject_translations`' loop: a segment whose
1-based id has a truthy translation is replaced by
`encode_text_segment`'s output, any other segment keeps its original
bytes; between consecutive segments the original bytes are copied, and
after the last segment the rest of the buffer is copied. -/
def buildSegments (data : List Nat) (tr : Nat → List Char) :
    List (Nat × Nat × Nat) → Nat → Option (List Nat)
  | [], _ => some []
  | [(p, _cs, ce)], i =>
    (if tr i ≠ [] then encode_text_segment (tr i)
     else some (pySlice data p ce)).map
      (fun seg => seg ++ pySlice data ce data.length)
  | (p, _cs, ce) :: s2 :: rest, i =>
    match (if tr i ≠ [] then encode_text_segment (tr i)
           else some (pySlice data p ce)) with
    | none => none
    | some seg =>
      match buildSegments data tr (s2 :: rest) (i + 1) with
      | none => none
      | some tail => some (seg ++ pySlice data ce s2.1 ++ tail)

/-- `RTZInjector.inject_translations`, modelled on the output file's
bytes: with no segments the original file is copied verbatim, otherwise
the new buffer is the original bytes before the first segment followed
by the processed segments; a raise inside (struct.error on an
over-long translation) is caught and no output is produced (`none`).
The translation map `tr` gives `[]` for an absent or empty entry,
matching the `segment_id in translations and translations[segment_id]`
truthiness test. -/
def inject_translations (data : List Nat) (tr : Nat → List Char) :
    Option (List Nat) :=
  let segments := find_text_segments data 0
  match segments with
  | [] => some data
  | (p0, _, _) :: _ =>
    (buildSegments data tr segments 1).map
      (fun body => pySlice data 0 p0 ++ body)

/-! ## extract_rtz_filtered.py — character classes

`str.isprintable`, `str.lower`, `\w` and `str.isalpha` are Unicode-table
functions; they are modelled over the character repertoire these scripts
actually traffic in (ASCII, Latin, Greek, Cyrillic, kana, CJK, half/full
width forms, format and separator characters). -/

/-- Python `str.isprintable` for one character: everything except
control characters, non-space separators and format characters. -/
def pyIsPrintable (c : Char) : Bool :=
  let u := c.toNat
  !(u < 32 || (0x7F ≤ u && u ≤ 0xA0) || (pyIsSpace c && u != 32) ||
    u == 0xAD || (0x200B ≤ u && u ≤ 0x200F) || (0x202A ≤ u && u ≤ 0x202E) ||
    (0x2060 ≤ u && u ≤ 0x2064) || (0x2066 ≤ u && u ≤ 0x206F) ||
    u == 0xFEFF || (0xFFF9 ≤ u && u ≤ 0xFFFB))

/-- Python `str.lower` per character (ASCII case fold; other characters
unchanged — none of the vocabulary below has non-ASCII case). -/
def pyLower (c : Char) : Char :=
  if 65 ≤ c.toNat ∧ c.toNat ≤ 90 then Char.ofNat (c.toNat + 32) else c

def isAsciiLetter (c : Char) : Bool :=
  (65 ≤ c.toNat && c.toNat ≤ 90) || (97 ≤ c.toNat && c.toNat ≤ 122)

def isAsciiDigit (c : Char) : Bool := 48 ≤ c.toNat && c.toNat ≤ 57

/-- The ASCII class `[a-zA-Z0-9_]` of the Unix-path junk pattern. -/
def isAsciiWordChar (c : Char) : Bool :=
  isAsciiLetter c || isAsciiDigit c || c == '_'

def isHexDigit (c : Char) : Bool :=
  isAsciiDigit c || (65 ≤ c.toNat && c.toNat ≤ 70) || (97 ≤ c.toNat && c.toNat ≤ 102)

/-- Python Unicode `\w`: letters of the scripts in play, digits and
underscore (U+30FB katakana middle dot is punctuation, not `\w`). -/
def pyIsWordChar (c : Char) : Bool :=
  let u := c.toNat
  isAsciiWordChar c ||
  ((0xC0 ≤ u && u ≤ 0x2AF) && u != 0xD7 && u != 0xF7) ||
  (0x370 ≤ u && u ≤ 0x4FF) ||
  ((0x3040 ≤ u && u ≤ 0x30FF) && u != 0x30FB) ||
  (0x3400 ≤ u && u ≤ 0x4DBF) || (0x4E00 ≤ u && u ≤ 0x9FFF) ||
  (0xAC00 ≤ u && u ≤ 0xD7A3) ||
  (0xFF10 ≤ u && u ≤ 0xFF19) || (0xFF21 ≤ u && u ≤ 0xFF3A) ||
  (0xFF41 ≤ u && u ≤ 0xFF5A) || (0xFF66 ≤ u && u ≤ 0xFFDC)

/-- Python `str.isalpha` for one character (letters of the scripts in
play). -/
def pyIsAlpha (c : Char) : Bool :=
  let u := c.toNat
  isAsciiLetter c ||
  ((0xC0 ≤ u && u ≤ 0x2AF) && u != 0xD7 && u != 0xF7) ||
  (0x370 ≤ u && u ≤ 0x4FF) ||
  ((0x3040 ≤ u && u ≤ 0x30FF) && u != 0x30FB) ||
  (0x3400 ≤ u && u ≤ 0x4DBF) || (0x4E00 ≤ u && u ≤ 0x9FFF) ||
  (0xAC00 ≤ u && u ≤ 0xD7A3) ||
  (0xFF21 ≤ u && u ≤ 0xFF3A) || (0xFF41 ≤ u && u ≤ 0xFF5A) ||
  (0xFF66 ≤ u && u ≤ 0xFFDC)

/-- The four source ranges of `is_japanese_text`: Hiragana, Katakana,
CJK Unified Ideographs, Halfwidth/Fullwidth Forms. -/
def isJapaneseChar (c : Char) : Bool :=
  let u := c.toNat
  (0x3040 ≤ u && u ≤ 0x309F) || (0x30A0 ≤ u && u ≤ 0x30FF) ||
  (0x4E00 ≤ u && u ≤ 0x9FAF) || (0xFF00 ≤ u && u ≤ 0xFFEF)

def lbrace : Char := Char.ofNat 123

def rbrace : Char := Char.ofNat 125

/-! ## extract_rtz_filtered.py — clean_text -/

/-- Try the regex `CLEANER_KANA = <\|([^|]+)\|[^|]*\|>` at the head of
the list; on a match return the first capture group and the remainder
after the match.  The character classes exclude `|`, so the greedy
quantifiers are deterministic. -/
def matchKana (l : List Char) : Option (List Char × List Char) :=
  match l with
  | '<' :: '|' :: rest =>
    let g1 := rest.takeWhile (· ≠ '|')
    let r1 := rest.dropWhile (· ≠ '|')
    let r2 := (r1.drop 1).dropWhile (· ≠ '|')
    if g1 ≠ [] ∧ r1 ≠ [] ∧ r2.take 2 = ['|', '>'] then some (g1, r2.drop 2)
    else none
  | _ => none

/-- `CLEANER_KANA.sub(r'\1', s)`: leftmost non-overlapping replacement
of each ruby construct by its first group.  The fuel argument only
bounds the recursion (each step consumes at least one character, see
`matchKana_length`), so `l.length` fuel never runs out. -/
def kanaSubF : Nat → List Char → List Char
  | 0, l => l
  | fuel + 1, l =>
    match matchKana l with
    | some (g1, rest) => g1 ++ kanaSubF fuel rest
    | none =>
      match l with
      | [] => []
      | c :: t => c :: kanaSubF fuel t

def kanaSub (l : List Char) : List Char :=
  kanaSubF l.length l

/-- Try the regex `CLEANER_TAGS = \{\$\d+\}|\{\$\}` at the head of the
list; on a match return the remainder after the match. -/
def matchTag (l : List Char) : Option (List Char) :=
  match l with
  | a :: b :: rest =>
    if a = lbrace ∧ b = '$' then
      let ds := rest.takeWhile isAsciiDigit
      let r1 := rest.dropWhile isAsciiDigit
      if ds ≠ [] ∧ r1.take 1 = [rbrace] then some (r1.drop 1)
      else if ds = [] ∧ rest.take 1 = [rbrace] then some (rest.drop 1)
      else none
    else none
  | _ => none

/-- `CLEANER_TAGS.sub('', s)` (fuelled like `kanaSubF`, see
`matchTag_length`). -/
def tagSubF : Nat → List Char → List Char
  | 0, l => l
  | fuel + 1, l =>
    match matchTag l with
    | some rest => tagSubF fuel rest
    | none =>
      match l with
      | [] => []
      | c :: t => c :: tagSubF fuel t

def tagSub (l : List Char) : List Char :=
  tagSubF l.length l

/-- `re.sub(r'[ \t]+', ' ', s)`: collapse runs of spaces/tabs to a
single space (fuelled; each step consumes at least one character). -/
def collapseSpacesF : Nat → List Char → List Char
  | 0, l => l
  | _ + 1, [] => []
  | fuel + 1, c :: t =>
    if c = ' ' ∨ c = '\t' then
      ' ' :: collapseSpacesF fuel (t.dropWhile fun c => c = ' ' || c = '\t')
    else c :: collapseSpacesF fuel t

def collapseSpaces (l : List Char) : List Char :=
  collapseSpacesF l.length l

/-- `clean_text`: ruby markup to its base text, format tags removed,
space runs collapsed, `†` back to newline, ends stripped. -/
def clean_text (s : List Char) : List Char :=
  pyStrip (((collapseSpaces (tagSub (kanaSub s))).map
    fun c => if c = dagger then '\n' else c))

/-! ## extract_rtz_filtered.py — classifier -/

/-- The removal class of `is_japanese_text`:
`[\s\.,!?\-・。、†\n\r]`. -/
def isBasicPunct (c : Char) : Bool :=
  pyIsSpace c || c == '.' || c == ',' || c == '!' || c == '?' || c == '-' ||
  c == '・' || c == '。' || c == '、' || c == dagger

/-- `is_japanese_text`: strip-length gate, punctuation removal, then at
least 30% of the printable characters must lie in the four Japanese
ranges.  The float test `japanese_chars / total_chars >= 0.3` is the
exact comparison `3 * total ≤ 10 * japanese` at these magnitudes. -/
def is_japanese_text (text : List Char) : Bool :=
  if text = [] ∨ (pyStrip text).length < 3 then false
  else
    let ct := text.filter fun c => !isBasicPunct c
    if ct.length < 3 then false
    else
      let total := ct.countP pyIsPrintable
      let japanese := ct.countP fun c => pyIsPrintable c && isJapaneseChar c
      if total = 0 then false
      else 3 * total ≤ 10 * japanese

/-- The `game_terms` vocabulary of `contains_game_terms`. -/
def game_terms : List (List Char) :=
  ["ヴァンガード".toList, "vanguard".toList, "ガード".toList, "guard".toList,
   "アタック".toList, "attack".toList, "ダメージ".toList, "damage".toList,
   "ブースト".toList, "boost".toList, "パワー".toList, "power".toList,
   "リアガード".toList, "rear".toList, "ドライブ".toList, "drive".toList,
   "チェック".toList, "check".toList, "トリガー".toList, "trigger".toList,
   "ユニット".toList, "unit".toList, "カード".toList, "card".toList,
   "バトル".toList, "battle".toList, "ターン".toList, "turn".toList,
   "フィールド".toList, "field".toList, "ステップ".toList, "step".toList]

/-- `contains_game_terms`: any term occurs in the lower-cased text. -/
def contains_game_terms (text : List Char) : Bool :=
  game_terms.any fun t => containsSub (text.map pyLower) t

/-- `has_dialogue_patterns`: the five searched patterns.  The fifth,
`[って|という|といった]`, is a character class, so it matches any one of
`っ て と い う た` or a literal `|`. -/
def has_dialogue_patterns (text : List Char) : Bool :=
  (text.any fun c => c == '。' || c == '！' || c == '？') ||
  (["だよ".toList, "です".toList, "である".toList, "だね".toList,
    "でしょ".toList, "わ。".toList, "の。".toList, "よ。".toList].any
      fun p => containsSub text p) ||
  (["これ".toList, "それ".toList, "あれ".toList, "この".toList,
    "その".toList, "あの".toList].any fun p => containsSub text p) ||
  (["です".toList, "ます".toList, "だ".toList, "である".toList].any
      fun p => containsSub text p) ||
  (text.any fun c =>
    c == 'っ' || c == 'て' || c == '|' || c == 'と' || c == 'い' ||
    c == 'う' || c == 'た')

/-- Junk pattern `^[a-zA-Z]:[/\\]` (Windows path). -/
def junkWinPath (text : List Char) : Bool :=
  match text with
  | a :: b :: c :: _ =>
    isAsciiLetter a && b == ':' && (c == '/' || c == '\\')
  | _ => false

/-- Junk pattern `/[a-zA-Z0-9_]+/` (Unix path), searched at every
position. -/
def junkUnixPath (text : List Char) : Bool :=
  match text with
  | [] => false
  | c :: t =>
    (c == '/' && !(t.takeWhile isAsciiWordChar).isEmpty &&
      (match t.dropWhile isAsciiWordChar with
       | '/' :: _ => true
       | _ => false)) ||
    junkUnixPath t

/-- `$` in `re.search` matches at the end of the string or just before a
trailing newline. -/
def endsBeforeNL (text pat : List Char) : Bool :=
  pat.isSuffixOf text || (pat ++ ['\n']).isSuffixOf text

/-- Junk pattern `\.(?:dll|exe|bin|rtz|orb)$` under `re.IGNORECASE`. -/
def junkExt (text : List Char) : Bool :=
  let lower := text.map pyLower
  [".dll".toList, ".exe".toList, ".bin".toList, ".rtz".toList,
   ".orb".toList].any fun p => endsBeforeNL lower p

/-- Junk pattern `^[0-9A-Fa-f]{8,}$` (long hex-only string). -/
def junkHex (text : List Char) : Bool :=
  (8 ≤ text.length && text.all isHexDigit) ||
  (text.getLast? == some '\n' && 8 ≤ text.dropLast.length &&
    text.dropLast.all isHexDigit)

/-- Search for `pat` without crossing a newline (`.` does not match
`\n`). -/
def searchNoNL (hay pat : List Char) : Bool :=
  if pat.isPrefixOf hay then true
  else
    match hay with
    | [] => false
    | c :: t => if c = '\n' then false else searchNoNL t pat

/-- Junk pattern `^Copyright.*All Rights Reserved` under
`re.IGNORECASE`. -/
def junkCopyright (text : List Char) : Bool :=
  let lower := text.map pyLower
  "copyright".toList.isPrefixOf lower &&
    searchNoNL (lower.drop 9) "all rights reserved".toList

/-- Junk pattern `楲瑰|潴た|畴潴|瑥畴` (garbled-decoding signatures). -/
def junkGarbled (text : List Char) : Bool :=
  ["楲瑰".toList, "潴た".toList, "畴潴".toList, "瑥畴".toList].any
    fun p => containsSub text p

/-- Junk pattern `^[^぀-龯＀-￯\w\s]{5,}` (a run of at
least five leading unrecognized symbols). -/
def junkSymbols (text : List Char) : Bool :=
  5 ≤ text.length && (text.take 5).all fun c =>
    let u := c.toNat
    !((0x3040 ≤ u && u ≤ 0x9FAF) || (0xFF00 ≤ u && u ≤ 0xFFEF) ||
      pyIsWordChar c || pyIsSpace c)

/-- `is_likely_filepath_or_junk`: any of the seven junk signatures. -/
def is_likely_filepath_or_junk (text : List Char) : Bool :=
  junkWinPath text || junkUnixPath text || junkExt text || junkHex text ||
  junkCopyright text || junkGarbled text || junkSymbols text

/-- The filter criteria computed in `extract_segments` for one cleaned
text: stripped length at least 3, no junk signature, and one of the
three content signals. -/
def is_valid_text (clean : List Char) : Bool :=
  3 ≤ (pyStrip clean).length &&
  !is_likely_filepath_or_junk clean &&
  (is_japanese_text clean || contains_game_terms clean ||
    has_dialogue_patterns clean)

/-- The acceptance policy in the words of the amended claim C6 (for
comparison with `is_valid_text`, the policy of the source): the text
stripped of leading/trailing whitespace has at least 3 characters; AND
no junk signature matches; AND at least one of (a) after deleting
whitespace/basic punctuation/line markers at least 3 characters remain,
at least one of them is printable, and the source-script characters
among the printable ones make up at least 30 percent, (b) a known
game-term token occurs, (c) a domain sentence-pattern matches. -/
def spec_is_valid_amended (clean : List Char) : Bool :=
  decide (3 ≤ (pyStrip clean).length) &&
  !is_likely_filepath_or_junk clean &&
  ((decide (3 ≤ (clean.filter fun c => !isBasicPunct c).length) &&
    decide (1 ≤ ((clean.filter fun c => !isBasicPunct c).filter pyIsPrintable).length) &&
    decide (((clean.filter fun c => !isBasicPunct c).filter pyIsPrintable).length * 3 ≤
      (((clean.filter fun c => !isBasicPunct c).filter pyIsPrintable).filter
        isJapaneseChar).length * 10)) ||
   contains_game_terms clean || has_dialogue_patterns clean)

/-! ## extract_rtz_filtered.py — scanner and fixed-slot patcher -/

/-- The `Segment` dataclass. -/
structure Segment where
  prefix_pos : Nat
  content_start : Nat
  content_end : Nat
  raw : List Char
  clean : List Char
  translation : List Char := []
  is_valid : Bool := false
deriving Repr, DecidableEq

/-- `extract_segments`: scan from `pos`; stop at the terminator or when
a content window leaves the buffer; otherwise decode, clean and
classify the candidate and continue from its `content_end`.  (The
`except` branch of the source is unreachable: decoding uses
`errors="ignore"` and the classifier is total.) -/
def extract_segments (data : List Nat) (pos : Nat) : List Segment :=
  if _h5 : pos + 5 ≤ data.length then
    if pySlice data pos (pos + 5) = TERMINATOR then []
    else
      let L := data.getD (pos + 4) 0
      let ce := pos + 5 + 2 * L
      if _hce : ce ≤ data.length then
        let raw_str := utf16leDecode (pySlice data (pos + 5) ce)
        let clean := clean_text raw_str
        ⟨pos, pos + 5, ce, raw_str, clean, [], is_valid_text clean⟩ ::
          extract_segments data ce
      else []
  else []
termination_by data.length - pos
decreasing_by omega

/-- Attach translations to scanned segments (`seg.translation =
translate(seg.clean)` in the source — a function of the segment; the
patcher below only reads translations of valid segments). -/
def applyTr (f : Segment → List Char) (segs : List Segment) : List Segment :=
  segs.map fun s => { s with translation := f s }

/-- `k` is an index outside the content window of every valid segment of
`segs` (the only buffer region the fixed-slot patcher writes, apart from
the length byte it rewrites with its original value). -/
def outsidePayloads (segs : List Segment) (k : Nat) : Prop :=
  ∀ s ∈ segs, s.is_valid = true → ¬(s.content_start ≤ k ∧ k < s.content_end)

/-- The re-encoded payload of `translate_and_patch`: UTF-16LE bytes of
the translation, padded with UTF-16 spaces or truncated to the original
byte span. -/
def fitPayload (translation : List Char) (orig_len : Nat) : List Nat :=
  let new_raw := utf16leBytes translation
  if new_raw.length < orig_len then
    new_raw ++ (List.replicate ((orig_len - new_raw.length) / 2) ([32, 0] : List Nat)).flatten
  else
    new_raw.take orig_len

/-- One iteration of the patch loop of `translate_and_patch`: write the
recomputed unit count into the length byte, then replace the content
window with the fitted payload. -/
def patchOne (buf : List Nat) (s : Segment) : List Nat :=
  let orig_len := s.content_end - s.content_start
  let new_raw := fitPayload s.translation orig_len
  let new_units := new_raw.length / 2
  let buf1 := buf.set (s.prefix_pos + 4) (new_units % 256)
  buf1.take s.content_start ++ new_raw ++ buf1.drop s.content_end

/-- The patch loop of `translate_and_patch`: walk the segments in
reverse and patch each valid one in place. -/
def patch_segments (buf : List Nat) (segs : List Segment) : List Nat :=
  segs.reverse.foldl (fun b s => if s.is_valid then patchOne b s else b) buf

/-- The candidate `Segment` that `extract_segments` registers at a scan
position. -/
def mkScanSeg (data : List Nat) (pos : Nat) : Segment :=
  let ce := pos + 5 + 2 * data.getD (pos + 4) 0
  let raw_str := utf16leDecode (pySlice data (pos + 5) ce)
  let clean := clean_text raw_str
  ⟨pos, pos + 5, ce, raw_str, clean, [], is_valid_text clean⟩

/-- The segments `extract_segments` has accumulated when its scan,
started at `pos`, reaches the position `stop` (used to state that a
structural truncation keeps the partial result). -/
def extractUntil (data : List Nat) (stop pos : Nat) : List Segment :=
  if pos = stop then []
  else if _h5 : pos + 5 ≤ data.length then
    if pySlice data pos (pos + 5) = TERMINATOR then []
    else
      let L := data.getD (pos + 4) 0
      let ce := pos + 5 + 2 * L
      if _hce : ce ≤ data.length then
        let raw_str := utf16leDecode (pySlice data (pos + 5) ce)
        let clean := clean_text raw_str
        ⟨pos, pos + 5, ce, raw_str, clean, [], is_valid_text clean⟩ ::
          extractUntil data stop ce
      else []
  else []
termination_by data.length - pos
decreasing_by omega

/-! ## decompress_fighter_info.py — gated scanner -/

/-- Python `bytes.find`: index of the first occurrence of `pat`, else
`none`. -/
def pyFind (data pat : List Nat) : Option Nat :=
  if pat.isPrefixOf data then some 0
  else
    match data with
    | [] => none
    | _ :: t => (pyFind t pat).map (· + 1)

/-- `is_japanese_text` of decompress_fighter_info.py (strip-length gate
is 2 there, and no punctuation removal). -/
def fighter_is_japanese_text (text : List Char) : Bool :=
  if text = [] ∨ (pyStrip text).length < 2 then false
  else
    let total := text.countP pyIsPrintable
    let japanese := text.countP fun c => pyIsPrintable c && isJapaneseChar c
    if total = 0 then false
    else 3 * total ≤ 10 * japanese

/-- The `character_terms` vocabulary of `contains_character_terms`. -/
def character_terms : List (List Char) :=
  ["キャラクター".toList, "ファイター".toList, "プレイヤー".toList,
   "選手".toList, "名前".toList, "キャラ".toList,
   "クラン".toList, "選択".toList, "決定".toList, "確認".toList,
   "せんたく".toList, "けってい".toList, "かくにん".toList,
   "アイチ".toList, "カムイ".toList, "ミサキ".toList, "カイ".toList,
   "先導".toList, "せんどう".toList, "アイチ".toList,
   "character".toList, "fighter".toList, "player".toList, "name".toList,
   "clan".toList, "select".toList, "confirm".toList,
   "aichi".toList, "kamui".toList, "misaki".toList, "kai".toList,
   "ボタン".toList, "メニュー".toList, "画面".toList, "がめん".toList,
   "ぼたん".toList, "めにゅー".toList]

/-- `contains_character_terms`: any term (lower-cased) occurs in the
lower-cased text. -/
def contains_character_terms (text : List Char) : Bool :=
  character_terms.any fun t =>
    containsSub (text.map pyLower) (t.map pyLower)

/-- One record of `extract_text_segments_from_decompressed` (the dict
appended to `segments`). -/
structure FighterSeg where
  index : Nat
  prefix_pos : Nat
  text_pos : Nat
  len : Nat
  raw_text : List Char
  clean_text : List Char
  is_japanese : Bool
  has_char_terms : Bool
deriving Repr, DecidableEq

/-- The cleaning step of the fighter scanner:
`''.join(c for c in text if c.isprintable() or c in '\n\r\t†')` then
`.strip()`. -/
def fighterClean (text : List Char) : List Char :=
  pyStrip (text.filter fun c =>
    pyIsPrintable c || c == '\n' || c == '\r' || c == '\t' || c == dagger)

/-- The scan loop of `extract_text_segments_from_decompressed`:
`search_end` is the terminator position (or the data length); at each
`pos < search_end - 5` a candidate is registered only when the length
byte is in [1, 200], its window is in bounds and the cleaned decoded
text passes the meaningfulness test, in which case the scan jumps to
`text_end`; on any failed test the scan advances one byte. -/
def fighterScanAux (data : List Nat) (search_end : Nat) (count pos : Nat) :
    List FighterSeg :=
  if _hin : pos < search_end - 5 then
    if pos + 5 ≤ data.length then
      let length_byte := data.getD (pos + 4) 0
      if 1 ≤ length_byte ∧ length_byte ≤ 200 then
        let text_start := pos + 5
        let text_end := text_start + length_byte * 2
        if _hte : text_end ≤ data.length then
          let text := utf16leDecode (pySlice data text_start text_end)
          let clean := fighterClean text
          if 2 ≤ clean.length ∧
              (fighter_is_japanese_text clean || contains_character_terms clean ||
               clean.any pyIsAlpha) then
            ⟨count + 1, pos, text_start, length_byte, text, clean,
              fighter_is_japanese_text clean, contains_character_terms clean⟩ ::
              fighterScanAux data search_end (count + 1) text_end
          else fighterScanAux data search_end count (pos + 1)
        else fighterScanAux data search_end count (pos + 1)
      else fighterScanAux data search_end count (pos + 1)
    else fighterScanAux data search_end count (pos + 1)
  else []
termination_by search_end - pos
decreasing_by all_goals omega

/-- `extract_text_segments_from_decompressed` (the segment list it
returns). -/
def extract_text_segments_from_decompressed (data : List Nat) :
    List FighterSeg :=
  let search_end :=
    match pyFind data TERMINATOR with
    | some i => i
    | none => data.length
  fighterScanAux data search_end 0 0

/-! ## Slicing lemmas -/

theorem matchKana_length (l g r : List Char) (h : matchKana l = some (g, r)) :
    r.length < l.length := by
  unfold matchKana at h
  split at h
  next rest =>
    dsimp only at h
    split at h
    next hc =>
      obtain ⟨-, h1, h2⟩ := hc
      have e1 : (rest.dropWhile (· ≠ '|')).length ≤ rest.length :=
        (List.dropWhile_suffix _).sublist.length_le
      have e2 : (((rest.dropWhile (· ≠ '|')).drop 1).dropWhile (· ≠ '|')).length ≤
          ((rest.dropWhile (· ≠ '|')).drop 1).length :=
        (List.dropWhile_suffix _).sublist.length_le
      have e3 : 2 ≤ (((rest.dropWhile (· ≠ '|')).drop 1).dropWhile (· ≠ '|')).length := by
        have := congrArg List.length h2
        simp only [List.length_take, List.length_cons, List.length_nil] at this
        omega
      cases h
      simp only [List.length_drop, List.length_cons] at *
      omega
    · exact absurd h (by simp)
  next => exact absurd h (by simp)
theorem matchTag_length (l r : List Char) (h : matchTag l = some r) :
    r.length < l.length := by
  unfold matchTag at h
  split at h
  next a b rest =>
    split at h
    · dsimp only at h
      have h1 : (rest.dropWhile isAsciiDigit).length ≤ rest.length :=
        (List.dropWhile_suffix _).sublist.length_le
      split at h
      next hc =>
        obtain ⟨-, h2⟩ := hc
        have e1 : 1 ≤ (rest.dropWhile isAsciiDigit).length := by
          have := congrArg List.length h2
          simp only [List.length_take, List.length_cons, List.length_nil] at this
          omega
        cases h
        simp only [List.length_drop, List.length_cons]
        omega
      split at h
      next hc =>
        obtain ⟨-, h2⟩ := hc
        have e1 : 1 ≤ rest.length := by
          have := congrArg List.length h2
          simp only [List.length_take, List.length_cons, List.length_nil] at this
          omega
        cases h
        simp only [List.length_drop, List.length_cons]
        omega
      · exact absurd h (by simp)
    · exact absurd h (by simp)
  next => exact absurd h (by simp)

theorem pySlice_self (data : List Nat) (a : Nat) : pySlice data a a = [] := by
  apply List.drop_eq_nil_of_le
  simp [List.length_take]

theorem pySlice_zero_length (data : List Nat) :
    pySlice data 0 data.length = data := by
  simp [pySlice]

theorem drop_take_append_drop (l : List Nat) (a b : Nat) (hab : a ≤ b) :
    (l.take b).drop a ++ l.drop b = l.drop a := by
  conv_rhs => rw [← List.take_append_drop b l]
  rw [List.drop_append_eq_append_drop]
  by_cases hl : a ≤ (l.take b).length
  · have : a - (l.take b).length = 0 := by omega
    rw [this, List.drop_zero]
  · have hlen : l.length ≤ b := by
      simp only [List.length_take] at hl
      omega
    rw [List.drop_eq_nil_of_le hlen]
    simp

theorem pySlice_append (data : List Nat) (a b c : Nat) (hab : a ≤ b)
    (hbc : b ≤ c) : pySlice data a b ++ pySlice data b c = pySlice data a c := by
  unfold pySlice
  have h1 : data.take b = (data.take c).take b := by
    rw [List.take_take, min_eq_left hbc]
  rw [h1, drop_take_append_drop _ a b hab]

/-! ## find_text_segments structure -/

theorem fts_cons (data : List Nat) (pos : Nat) (h5 : pos + 5 ≤ data.length)
    (hterm : pySlice data pos (pos + 5) ≠ TERMINATOR)
    (hce : pos + 5 + 2 * data.getD (pos + 4) 0 ≤ data.length) :
    find_text_segments data pos =
      (pos, pos + 5, pos + 5 + 2 * data.getD (pos + 4) 0) ::
        find_text_segments data (pos + 5 + 2 * data.getD (pos + 4) 0) := by
  rw [find_text_segments]
  simp only [dif_pos h5, if_neg hterm, dif_pos hce]

theorem fts_nil_term (data : List Nat) (pos : Nat)
    (hterm : pySlice data pos (pos + 5) = TERMINATOR) :
    find_text_segments data pos = [] := by
  rw [find_text_segments]
  by_cases h5 : pos + 5 ≤ data.length
  · simp only [dif_pos h5, if_pos hterm]
  · simp only [dif_neg h5]

theorem fts_nil_oob (data : List Nat) (pos : Nat)
    (hce : ¬ pos + 5 + 2 * data.getD (pos + 4) 0 ≤ data.length) :
    find_text_segments data pos = [] := by
  rw [find_text_segments]
  by_cases h5 : pos + 5 ≤ data.length
  · by_cases hterm : pySlice data pos (pos + 5) = TERMINATOR
    · simp only [dif_pos h5, if_pos hterm]
    · simp only [dif_pos h5, if_neg hterm, dif_neg hce]
  · simp only [dif_neg h5]

theorem fts_head_eq (data : List Nat) (q : Nat) (s : Nat × Nat × Nat)
    (t : List (Nat × Nat × Nat)) (h : find_text_segments data q = s :: t) :
    s = (q, q + 5, q + 5 + 2 * data.getD (q + 4) 0) ∧
      t = find_text_segments data (q + 5 + 2 * data.getD (q + 4) 0) ∧
      q + 5 ≤ data.length ∧
      q + 5 + 2 * data.getD (q + 4) 0 ≤ data.length := by
  rw [find_text_segments] at h
  split at h
  · split at h
    · exact absurd h (by simp)
    · dsimp only at h
      split at h
      next hce =>
        rw [List.cons.injEq] at h
        exact ⟨h.1.symm, h.2.symm, by assumption, hce⟩
      · exact absurd h (by simp)
  · exact absurd h (by simp)

/-! ## C1: round-trip identity of the resizing encoder -/

theorem buildSegments_all_kept (data : List Nat) (tr : Nat → List Char) :
    ∀ pos, ∀ i, find_text_segments data pos ≠ [] →
      (∀ k, k < (find_text_segments data pos).length → tr (i + k) = []) →
      buildSegments data tr (find_text_segments data pos) i =
        some (pySlice data pos data.length) := by
  intro pos
  induction pos using find_text_segments.induct data with
  | case1 x h5 hterm =>
    intro i hne _
    exact absurd (fts_nil_term data x hterm) hne
  | case2 x h5 hterm len ce hce ih =>
    intro i hne htr
    have hce' : x + 5 + 2 * data.getD (x + 4) 0 ≤ data.length := hce
    have ih' : ∀ j, find_text_segments data (x + 5 + 2 * data.getD (x + 4) 0) ≠ [] →
        (∀ k, k < (find_text_segments data (x + 5 + 2 * data.getD (x + 4) 0)).length →
          tr (j + k) = []) →
        buildSegments data tr
            (find_text_segments data (x + 5 + 2 * data.getD (x + 4) 0)) j =
          some (pySlice data (x + 5 + 2 * data.getD (x + 4) 0) data.length) := ih
    rw [fts_cons data x h5 hterm hce'] at htr ⊢
    have h0 : tr i = [] := by
      have := htr 0 (by simp)
      simpa using this
    have hkept : (if tr i ≠ [] then encode_text_segment (tr i)
        else some (pySlice data x (x + 5 + 2 * data.getD (x + 4) 0))) =
        some (pySlice data x (x + 5 + 2 * data.getD (x + 4) 0)) := by
      rw [h0]
      simp
    rcases hrest : find_text_segments data (x + 5 + 2 * data.getD (x + 4) 0)
      with _ | ⟨s2, rest'⟩
    · simp only [buildSegments, hkept, Option.map_some']
      rw [pySlice_append data x (x + 5 + 2 * data.getD (x + 4) 0) data.length
        (by omega) hce']
    · obtain ⟨hs2, -, -, -⟩ := fts_head_eq data _ s2 rest' hrest
      simp only [buildSegments, hkept]
      have htail := ih' (i + 1) (by rw [hrest]; simp)
        (by
          intro k hk
          rw [hrest] at hk
          simp only [List.length_cons] at hk
          have h2 := htr (k + 1) (by simp only [hrest, List.length_cons]; omega)
          have harith : i + (k + 1) = i + 1 + k := by omega
          rw [harith] at h2
          exact h2)
      rw [hrest] at htail
      have hfirst : s2.1 = x + 5 + 2 * data.getD (x + 4) 0 := by rw [hs2]
      rw [htail, hfirst, pySlice_self, List.append_nil]
      dsimp only
      rw [pySlice_append data x (x + 5 + 2 * data.getD (x + 4) 0) data.length
        (by omega) hce']
  | case3 x h5 hterm len ce hce =>
    intro i hne _
    exact absurd (fts_nil_oob data x hce) hne
  | case4 x h5 =>
    intro i hne _
    refine absurd ?_ hne
    rw [find_text_segments]
    simp only [dif_neg h5]

/-- C1: running the resizing encoder `inject_translations` with a
translation map that supplies no (or only empty) replacement text for
every scanned segment produces an output buffer byte-for-byte identical
to the input buffer. -/
theorem claim_C1_roundtrip (data : List Nat) (tr : Nat → List Char)
    (htr : ∀ id, 1 ≤ id → id ≤ (find_text_segments data 0).length → tr id = []) :
    inject_translations data tr = some data := by
  unfold inject_translations
  rcases h : find_text_segments data 0 with _ | ⟨⟨p0, cs0, ce0⟩, tail⟩
  · rfl
  · obtain ⟨hs, -, -, -⟩ := fts_head_eq data 0 _ tail h
    have hp0 : p0 = 0 := by
      have := congrArg Prod.fst hs
      simpa using this
    have hmain := buildSegments_all_kept data tr 0 1 (by rw [h]; simp)
      (by
        intro k hk
        rw [h] at hk
        exact htr (1 + k) (by omega) (by rw [h]; omega))
    rw [h] at hmain
    dsimp only
    rw [hmain]
    simp only [Option.map_some']
    rw [hp0, pySlice_zero_length,
      show pySlice data 0 0 = [] from pySlice_self data 0]
    rfl

/-- C1 witness: a concrete buffer with one segment and the terminator,
injected with the all-empty translation map. -/
theorem claim_C1_roundtrip_witness :
    inject_translations ([0, 0, 0, 0, 1, 65, 0] ++ TERMINATOR) (fun _ => []) =
      some ([0, 0, 0, 0, 1, 65, 0] ++ TERMINATOR) :=
  claim_C1_roundtrip _ _ (fun _ _ _ => rfl)

/-! ## extract_segments / scanPositions structure -/

theorem es_cons (data : List Nat) (pos : Nat) (h5 : pos + 5 ≤ data.length)
    (hterm : pySlice data pos (pos + 5) ≠ TERMINATOR)
    (hce : pos + 5 + 2 * data.getD (pos + 4) 0 ≤ data.length) :
    extract_segments data pos =
      mkScanSeg data pos ::
        extract_segments data (pos + 5 + 2 * data.getD (pos + 4) 0) := by
  rw [extract_segments]
  simp only [dif_pos h5, if_neg hterm, dif_pos hce]
  rfl

theorem es_nil_term (data : List Nat) (pos : Nat)
    (hterm : pySlice data pos (pos + 5) = TERMINATOR) :
    extract_segments data pos = [] := by
  rw [extract_segments]
  by_cases h5 : pos + 5 ≤ data.length
  · simp only [dif_pos h5, if_pos hterm]
  · simp only [dif_neg h5]

theorem es_nil_oob (data : List Nat) (pos : Nat)
    (hce : ¬ pos + 5 + 2 * data.getD (pos + 4) 0 ≤ data.length) :
    extract_segments data pos = [] := by
  rw [extract_segments]
  by_cases h5 : pos + 5 ≤ data.length
  · by_cases hterm : pySlice data pos (pos + 5) = TERMINATOR
    · simp only [dif_pos h5, if_pos hterm]
    · simp only [dif_pos h5, if_neg hterm, dif_neg hce]
  · simp only [dif_neg h5]

theorem es_nil_short (data : List Nat) (pos : Nat)
    (h5 : ¬ pos + 5 ≤ data.length) :
    extract_segments data pos = [] := by
  rw [extract_segments]
  simp only [dif_neg h5]

theorem sp_cons (data : List Nat) (pos : Nat) (h5 : pos + 5 ≤ data.length)
    (hterm : pySlice data pos (pos + 5) ≠ TERMINATOR)
    (hce : pos + 5 + 2 * data.getD (pos + 4) 0 ≤ data.length) :
    scanPositions data pos =
      pos :: scanPositions data (pos + 5 + 2 * data.getD (pos + 4) 0) := by
  rw [scanPositions]
  simp only [dif_pos h5, if_neg hterm, dif_pos hce]

theorem sp_single_term (data : List Nat) (pos : Nat)
    (hterm : pySlice data pos (pos + 5) = TERMINATOR) :
    scanPositions data pos = [pos] := by
  rw [scanPositions]
  by_cases h5 : pos + 5 ≤ data.length
  · simp only [dif_pos h5, if_pos hterm]
  · simp only [dif_neg h5]

theorem sp_single_oob (data : List Nat) (pos : Nat)
    (hce : ¬ pos + 5 + 2 * data.getD (pos + 4) 0 ≤ data.length) :
    scanPositions data pos = [pos] := by
  rw [scanPositions]
  by_cases h5 : pos + 5 ≤ data.length
  · by_cases hterm : pySlice data pos (pos + 5) = TERMINATOR
    · simp only [dif_pos h5, if_pos hterm]
    · simp only [dif_pos h5, if_neg hterm, dif_neg hce]
  · simp only [dif_neg h5]

theorem sp_single_short (data : List Nat) (pos : Nat)
    (h5 : ¬ pos + 5 ≤ data.length) :
    scanPositions data pos = [pos] := by
  rw [scanPositions]
  simp only [dif_neg h5]

theorem sp_ge (data : List Nat) :
    ∀ q p, p ∈ scanPositions data q → q ≤ p := by
  intro q
  induction q using scanPositions.induct data with
  | case1 q h5 hterm =>
    intro p hp
    rw [sp_single_term data q hterm] at hp
    simp at hp
    omega
  | case2 q h5 hterm L ce hce ih =>
    intro p hp
    rw [sp_cons data q h5 hterm hce] at hp
    rcases List.mem_cons.mp hp with h | h
    · omega
    · have := ih p h
      omega
  | case3 q h5 hterm L ce hce =>
    intro p hp
    rw [sp_single_oob data q hce] at hp
    simp at hp
    omega
  | case4 q h5 =>
    intro p hp
    rw [sp_single_short data q h5] at hp
    simp at hp
    omega

theorem eu_stop (data : List Nat) (stop : Nat) :
    extractUntil data stop stop = [] := by
  rw [extractUntil]
  simp

theorem eu_cons (data : List Nat) (stop pos : Nat) (hne : pos ≠ stop)
    (h5 : pos + 5 ≤ data.length)
    (hterm : pySlice data pos (pos + 5) ≠ TERMINATOR)
    (hce : pos + 5 + 2 * data.getD (pos + 4) 0 ≤ data.length) :
    extractUntil data stop pos =
      mkScanSeg data pos ::
        extractUntil data stop (pos + 5 + 2 * data.getD (pos + 4) 0) := by
  rw [extractUntil]
  simp only [if_neg hne, dif_pos h5, if_neg hterm, dif_pos hce]
  rfl

theorem eu_nil_break (data : List Nat) (stop pos : Nat)
    (h : pySlice data pos (pos + 5) = TERMINATOR ∨
      ¬ pos + 5 + 2 * data.getD (pos + 4) 0 ≤ data.length ∨
      ¬ pos + 5 ≤ data.length) :
    extractUntil data stop pos = [] := by
  rw [extractUntil]
  by_cases hne : pos = stop
  · simp only [if_pos hne]
  · rw [if_neg hne]
    by_cases h5 : pos + 5 ≤ data.length
    · rw [dif_pos h5]
      rcases h with hterm | hce | hs
      · rw [if_pos hterm]
      · by_cases hterm : pySlice data pos (pos + 5) = TERMINATOR
        · rw [if_pos hterm]
        · rw [if_neg hterm]
          dsimp only
          rw [dif_neg hce]
      · exact absurd h5 hs
    · rw [dif_neg h5]

/-- Splitting the scan at any reached position: the full result is the
segments accumulated before that position followed by the scan restarted
there. -/
theorem extract_split (data : List Nat) (pos : Nat) :
    ∀ start, pos ∈ scanPositions data start →
      extract_segments data start =
        extractUntil data pos start ++ extract_segments data pos := by
  intro start
  induction start using extract_segments.induct data with
  | case1 q h5 hterm =>
    intro hreach
    rw [sp_single_term data q hterm] at hreach
    simp at hreach
    subst hreach
    rw [eu_stop]
    rfl
  | case2 q h5 hterm L ce hce ih =>
    intro hreach
    have hce' : q + 5 + 2 * data.getD (q + 4) 0 ≤ data.length := hce
    rw [sp_cons data q h5 hterm hce'] at hreach
    rcases List.mem_cons.mp hreach with heq | hmem
    · subst heq
      rw [eu_stop]
      rfl
    · have hge := sp_ge data _ pos hmem
      have hne : q ≠ pos := by omega
      rw [es_cons data q h5 hterm hce', ih hmem,
        eu_cons data pos q hne h5 hterm hce']
      rfl
  | case3 q h5 hterm L ce hce =>
    intro hreach
    have hce' : ¬ q + 5 + 2 * data.getD (q + 4) 0 ≤ data.length := hce
    rw [sp_single_oob data q hce'] at hreach
    simp at hreach
    subst hreach
    rw [eu_stop]
    rfl
  | case4 q h5 =>
    intro hreach
    rw [sp_single_short data q h5] at hreach
    simp at hreach
    subst hreach
    rw [eu_stop]
    rfl

theorem eu_bound (data : List Nat) (stop : Nat) :
    ∀ q, stop ∈ scanPositions data q →
      ∀ s ∈ extractUntil data stop q, s.content_end ≤ stop := by
  intro q
  induction q using extract_segments.induct data with
  | case1 q h5 hterm =>
    intro _ s hs
    rw [eu_nil_break data stop q (Or.inl hterm)] at hs
    simp at hs
  | case2 q h5 hterm L ce hce ih =>
    intro hreach s hs
    have hce' : q + 5 + 2 * data.getD (q + 4) 0 ≤ data.length := hce
    by_cases hqs : q = stop
    · rw [hqs, eu_stop] at hs
      simp at hs
    · rw [sp_cons data q h5 hterm hce'] at hreach
      rcases List.mem_cons.mp hreach with heq | hmem
      · exact absurd heq.symm hqs
      · rw [eu_cons data stop q hqs h5 hterm hce'] at hs
        rcases List.mem_cons.mp hs with hh | ht
        · have := sp_ge data _ stop hmem
          rw [hh]
          exact this
        · exact ih hmem s ht
  | case3 q h5 hterm L ce hce =>
    intro _ s hs
    have hce' : ¬ q + 5 + 2 * data.getD (q + 4) 0 ≤ data.length := hce
    rw [eu_nil_break data stop q (Or.inr (Or.inl hce'))] at hs
    simp at hs
  | case4 q h5 =>
    intro _ s hs
    rw [eu_nil_break data stop q (Or.inr (Or.inr h5))] at hs
    simp at hs

/-! ## C7: structural truncation is non-fatal and partial -/

/-- C7: when the scan of `extract_segments` reaches a candidate whose
computed `content_end` exceeds the buffer length, the scan halts at that
candidate (the function is total, so no exception), registers nothing at
or beyond it, and returns exactly the segments accumulated before it,
each of which ends at or before the truncated candidate. -/
theorem claim_C7_truncation (data : List Nat) (start pos : Nat)
    (hreach : pos ∈ scanPositions data start)
    (h5 : pos + 5 ≤ data.length)
    (hterm : pySlice data pos (pos + 5) ≠ TERMINATOR)
    (htrunc : data.length < pos + 5 + 2 * data.getD (pos + 4) 0) :
    extract_segments data pos = [] ∧
    extract_segments data start = extractUntil data pos start ∧
    ∀ s ∈ extract_segments data start, s.content_end ≤ pos := by
  have h1 : extract_segments data pos = [] :=
    es_nil_oob data pos (by omega)
  have h2 := extract_split data pos start hreach
  rw [h1, List.append_nil] at h2
  refine ⟨h1, h2, ?_⟩
  intro s hs
  rw [h2] at hs
  exact eu_bound data pos start hreach s hs

/-- C7 witness: a buffer with one good segment at offset 0 and a
truncated candidate (length byte 200) at offset 7. -/
theorem claim_C7_truncation_witness :
    extract_segments [0, 0, 0, 0, 1, 65, 0, 0, 0, 0, 0, 200] 7 = [] ∧
    extract_segments [0, 0, 0, 0, 1, 65, 0, 0, 0, 0, 0, 200] 0 =
      extractUntil [0, 0, 0, 0, 1, 65, 0, 0, 0, 0, 0, 200] 7 0 ∧
    ∀ s ∈ extract_segments [0, 0, 0, 0, 1, 65, 0, 0, 0, 0, 0, 200] 0,
      s.content_end ≤ 7 :=
  claim_C7_truncation [0, 0, 0, 0, 1, 65, 0, 0, 0, 0, 0, 200] 0 7
    (by
      have h : scanPositions [0, 0, 0, 0, 1, 65, 0, 0, 0, 0, 0, 200] 0 = [0, 7] := by
        simp +decide [scanPositions]
      rw [h]
      decide)
    (by decide) (by decide) (by decide)

/-! ## C2: header metadata under the resizing encoder -/

/-- C2 counterexample: a segment whose 4 metadata bytes are `1 2 3 4`
receives a translation; the output buffer carries `0 0 0 0` there
instead — the metadata bytes are rewritten, not copied through. -/
theorem claim_C2_counterexample :
    inject_translations ([1, 2, 3, 4, 1, 65, 0] ++ TERMINATOR)
        (fun i => if i = 1 then ['A'] else []) =
      some ([0, 0, 0, 0, 1, 65, 0] ++ TERMINATOR) ∧
    pySlice ([1, 2, 3, 4, 1, 65, 0] ++ TERMINATOR) 0 4 = [1, 2, 3, 4] := by
  constructor
  · have hf : find_text_segments ([1, 2, 3, 4, 1, 65, 0] ++ TERMINATOR) 0 =
        [(0, 5, 7)] := by
      simp +decide [find_text_segments]
    unfold inject_translations
    rw [hf]
    decide
  · decide

/-- C2 (amended): the resizing encoder does not copy the 4 metadata
bytes of a translated segment; `encode_text_segment` always emits the
fixed prefix `00 00 00 00` for them (metadata survives only on segments
that receive no translation). -/
theorem claim_C2_metadata_rewrite (text : List Char) (out : List Nat)
    (hne : text ≠ []) (henc : encode_text_segment text = some out) :
    out.take 4 = [0, 0, 0, 0] := by
  unfold encode_text_segment at henc
  rw [if_neg hne] at henc
  dsimp only at henc
  split at henc
  · cases henc
    rfl
  · exact absurd henc (by simp)

/-- C2 witness: a one-character translation. -/
theorem claim_C2_metadata_rewrite_witness :
    ([0, 0, 0, 0, 1, 65, 0] : List Nat).take 4 = [0, 0, 0, 0] :=
  claim_C2_metadata_rewrite ['A'] [0, 0, 0, 0, 1, 65, 0]
    (by decide) (by decide)

/-! ## C4: overflow behaviour of the two encoders -/

theorem utf16leBytes_even (l : List Char) : 2 ∣ (utf16leBytes l).length := by
  induction l with
  | nil => simp [utf16leBytes]
  | cons c t ih =>
    unfold utf16leBytes at ih ⊢
    rw [List.map_cons, List.flatten_cons, List.length_append]
    dsimp only at ih ⊢
    by_cases hu : c.toNat < 0x10000
    · rw [if_pos hu]
      simp only [List.length_cons, List.length_nil]
      omega
    · rw [if_neg hu]
      simp only [List.length_cons, List.length_nil]
      omega

theorem padPairs_length (k : Nat) :
    ((List.replicate k ([32, 0] : List Nat)).flatten).length = 2 * k := by
  induction k with
  | zero => simp
  | succ n ih =>
    rw [List.replicate_succ, List.flatten_cons, List.length_append, ih]
    simp
    omega

set_option maxRecDepth 10000 in
/-- C4 counterexample: a 256-character translation makes the resizing
encoder raise (`struct.pack('B', 256)`), and the whole injection of a
file containing it aborts with no output buffer — nothing is
truncated. -/
theorem claim_C4_counterexample :
    encode_text_segment (List.replicate 256 'a') = none ∧
    inject_translations ([0, 0, 0, 0, 1, 65, 0] ++ TERMINATOR)
      (fun i => if i = 1 then List.replicate 256 'a' else []) = none := by
  constructor
  · decide
  · have hf : find_text_segments ([0, 0, 0, 0, 1, 65, 0] ++ TERMINATOR) 0 =
        [(0, 5, 7)] := by
      simp +decide [find_text_segments]
    unfold inject_translations
    rw [hf]
    decide

/-- C4 (amended): overflow handling differs per encoder.  The fixed-slot
patcher truncates or pads every translation to the original byte span
and never fails.  The resizing encoder never truncates: any translation
of at most 255 UTF-16 units is emitted in full (even beyond the 200-unit
domain), and one of more than 255 units makes encoding fail, aborting
that file's output. -/
theorem claim_C4_overflow_behavior (t : List Char) (orig_len : Nat)
    (text : List Char) (h2 : 2 ∣ orig_len) :
    (fitPayload t orig_len).length = orig_len ∧
    (255 < (utf16leBytes (text.map fun c => if c = '\n' then dagger else c)).length / 2 →
      encode_text_segment text = none) ∧
    (text ≠ [] →
      (utf16leBytes (text.map fun c => if c = '\n' then dagger else c)).length / 2 ≤ 255 →
      encode_text_segment text =
        some ([0, 0, 0, 0] ++
          [(utf16leBytes (text.map fun c => if c = '\n' then dagger else c)).length / 2] ++
          utf16leBytes (text.map fun c => if c = '\n' then dagger else c))) := by
  refine ⟨?_, ?_, ?_⟩
  · unfold fitPayload
    have he := utf16leBytes_even t
    dsimp only
    split
    next hlt =>
      rw [List.length_append, padPairs_length]
      omega
    next hge =>
      rw [List.length_take]
      omega
  · intro hover
    by_cases htext : text = []
    · subst htext
      simp [utf16leBytes] at hover
    · unfold encode_text_segment
      rw [if_neg htext]
      dsimp only
      rw [if_neg (by omega)]
  · intro htext hle
    unfold encode_text_segment
    rw [if_neg htext]
    dsimp only
    rw [if_pos hle]

set_option maxRecDepth 10000 in
/-- C4 witness: a short translation fits a 6-byte slot exactly; a
300-character translation fails the resizing encoder; a 201-character
one is emitted whole with length byte 201. -/
theorem claim_C4_overflow_behavior_witness :
    (fitPayload "Hi".toList 6).length = 6 ∧
    encode_text_segment (List.replicate 300 'a') = none ∧
    encode_text_segment (List.replicate 201 'a') =
      some ([0, 0, 0, 0] ++
        [(utf16leBytes ((List.replicate 201 'a').map
            fun c => if c = '\n' then dagger else c)).length / 2] ++
        utf16leBytes ((List.replicate 201 'a').map
          fun c => if c = '\n' then dagger else c)) :=
  ⟨(claim_C4_overflow_behavior "Hi".toList 6 [] (by decide)).1,
   (claim_C4_overflow_behavior [] 0 (List.replicate 300 'a') (by decide)).2.1
     (by decide),
   (claim_C4_overflow_behavior [] 0 (List.replicate 201 'a') (by decide)).2.2
     (by decide) (by decide)⟩

/-! ## C3: the length-byte gate -/

/-- C3 counterexample: `extract_segments` has no [1, 200] gate — at an
offset whose length byte is `0x00` it still registers a (zero-payload)
segment and resumes five bytes later, not one. -/
theorem claim_C3_counterexample :
    List.getD [0, 0, 0, 0, 0, 9] 4 0 = 0 ∧
    (extract_segments [0, 0, 0, 0, 0, 9] 0).map
      (fun s => (s.prefix_pos, s.content_start, s.content_end)) =
      [(0, 5, 5)] := by
  refine ⟨by decide, ?_⟩
  have h1 : extract_segments [0, 0, 0, 0, 0, 9] 0 =
      mkScanSeg [0, 0, 0, 0, 0, 9] 0 ::
        extract_segments [0, 0, 0, 0, 0, 9]
          (0 + 5 + 2 * List.getD [0, 0, 0, 0, 0, 9] 4 0) :=
    es_cons [0, 0, 0, 0, 0, 9] 0 (by decide) (by decide) (by decide)
  have harg : 0 + 5 + 2 * List.getD [0, 0, 0, 0, 0, 9] 4 0 = 5 := by decide
  rw [harg] at h1
  have h2 : extract_segments [0, 0, 0, 0, 0, 9] 5 = [] :=
    es_nil_short [0, 0, 0, 0, 0, 9] 5 (by decide)
  rw [h1, h2]
  decide

theorem fighterScanAux_inv (data : List Nat) (send : Nat) :
    ∀ count pos, ∀ s ∈ fighterScanAux data send count pos,
      1 ≤ s.len ∧ s.len ≤ 200 ∧ s.prefix_pos + 5 + s.len * 2 ≤ data.length := by
  intro count pos
  induction count, pos using fighterScanAux.induct data send with
  | case1 count pos hin h5 L hL ts te hte text clean hmean ih =>
    intro s hs
    rw [fighterScanAux] at hs
    rw [dif_pos hin, if_pos h5, if_pos hL] at hs
    dsimp only at hs
    have hte' : pos + 5 + data.getD (pos + 4) 0 * 2 ≤ data.length := hte
    rw [dif_pos hte'] at hs
    have hmean' : 2 ≤ (fighterClean (utf16leDecode (pySlice data (pos + 5)
          (pos + 5 + data.getD (pos + 4) 0 * 2)))).length ∧
        (fighter_is_japanese_text (fighterClean (utf16leDecode (pySlice data (pos + 5)
            (pos + 5 + data.getD (pos + 4) 0 * 2)))) ||
          contains_character_terms (fighterClean (utf16leDecode (pySlice data (pos + 5)
            (pos + 5 + data.getD (pos + 4) 0 * 2)))) ||
          (fighterClean (utf16leDecode (pySlice data (pos + 5)
            (pos + 5 + data.getD (pos + 4) 0 * 2)))).any pyIsAlpha) = true := hmean
    rw [if_pos hmean'] at hs
    rcases List.mem_cons.mp hs with hh | ht
    · subst hh
      exact ⟨hL.1, hL.2, hte⟩
    · exact ih s ht
  | case2 count pos hin h5 L hL ts te hte text clean hmean ih =>
    intro s hs
    rw [fighterScanAux] at hs
    rw [dif_pos hin, if_pos h5, if_pos hL] at hs
    dsimp only at hs
    have hte' : pos + 5 + data.getD (pos + 4) 0 * 2 ≤ data.length := hte
    rw [dif_pos hte'] at hs
    have hmean2 : ¬(2 ≤ (fighterClean (utf16leDecode (pySlice data (pos + 5)
          (pos + 5 + data.getD (pos + 4) 0 * 2)))).length ∧
        (fighter_is_japanese_text (fighterClean (utf16leDecode (pySlice data (pos + 5)
            (pos + 5 + data.getD (pos + 4) 0 * 2)))) ||
          contains_character_terms (fighterClean (utf16leDecode (pySlice data (pos + 5)
            (pos + 5 + data.getD (pos + 4) 0 * 2)))) ||
          (fighterClean (utf16leDecode (pySlice data (pos + 5)
            (pos + 5 + data.getD (pos + 4) 0 * 2)))).any pyIsAlpha) = true) := hmean
    rw [if_neg hmean2] at hs
    exact ih s hs
  | case3 count pos hin h5 L hL ts te hte ih =>
    intro s hs
    rw [fighterScanAux] at hs
    rw [dif_pos hin, if_pos h5, if_pos hL] at hs
    dsimp only at hs
    have hte2 : ¬ pos + 5 + data.getD (pos + 4) 0 * 2 ≤ data.length := hte
    rw [dif_neg hte2] at hs
    exact ih s hs
  | case4 count pos hin h5 L hL ih =>
    intro s hs
    rw [fighterScanAux] at hs
    rw [dif_pos hin, if_pos h5, if_neg hL] at hs
    exact ih s hs
  | case5 count pos hin h5 ih =>
    intro s hs
    rw [fighterScanAux] at hs
    rw [dif_pos hin, if_neg h5] at hs
    exact ih s hs
  | case6 count pos hin =>
    intro s hs
    rw [fighterScanAux] at hs
    rw [dif_neg hin] at hs
    simp at hs

/-- C3 (amended): the [1, 200] length-byte gate with one-byte advance
holds for the fighter-info scanner, not for `extract_segments` (see the
counterexample): every segment the fighter scanner registers has its
length byte in [1, 200] and its content window in bounds, and at an
offset whose length byte is 0 or greater than 200 it registers nothing
and advances exactly one byte. -/
theorem claim_C3_length_gate (data : List Nat) :
    (∀ s ∈ extract_text_segments_from_decompressed data,
      1 ≤ s.len ∧ s.len ≤ 200 ∧ s.prefix_pos + 5 + s.len * 2 ≤ data.length) ∧
    (∀ send count pos,
      data.getD (pos + 4) 0 = 0 ∨ 200 < data.getD (pos + 4) 0 →
      fighterScanAux data send count pos =
        fighterScanAux data send count (pos + 1)) := by
  constructor
  · intro s hs
    exact fighterScanAux_inv data _ 0 0 s hs
  · intro send count pos hL
    by_cases hin : pos < send - 5
    · conv_lhs => rw [fighterScanAux]
      rw [dif_pos hin]
      by_cases h5 : pos + 5 ≤ data.length
      · rw [if_pos h5, if_neg (by omega)]
      · rw [if_neg h5]
    · conv_lhs => rw [fighterScanAux]
      rw [dif_neg hin]
      conv_rhs => rw [fighterScanAux]
      rw [dif_neg (by omega)]

/-- C3 witness: in a buffer whose offset-0 length byte is 0, the fighter
scanner registers only the gated segment at offset 4 (length byte 2) and
treats offset 0 as a one-byte advance. -/
theorem claim_C3_length_gate_witness :
    (1 ≤ (2 : Nat) ∧ (2 : Nat) ≤ 200 ∧
      4 + 5 + 2 * 2 ≤
        (([0, 0, 0, 0, 0, 0, 0, 0, 2, 65, 0, 66, 0] ++ TERMINATOR ++
          [0, 0, 0, 0, 0, 0] : List Nat)).length) ∧
    fighterScanAux ([0, 0, 0, 0, 0, 0, 0, 0, 2, 65, 0, 66, 0] ++ TERMINATOR ++
        [0, 0, 0, 0, 0, 0]) 13 0 0 =
      fighterScanAux ([0, 0, 0, 0, 0, 0, 0, 0, 2, 65, 0, 66, 0] ++ TERMINATOR ++
        [0, 0, 0, 0, 0, 0]) 13 0 1 := by
  constructor
  · have hmem : (⟨1, 4, 9, 2, ['A', 'B'], ['A', 'B'], false, false⟩ : FighterSeg) ∈
        extract_text_segments_from_decompressed
          ([0, 0, 0, 0, 0, 0, 0, 0, 2, 65, 0, 66, 0] ++ TERMINATOR ++
            [0, 0, 0, 0, 0, 0]) := by
      have h : extract_text_segments_from_decompressed
          ([0, 0, 0, 0, 0, 0, 0, 0, 2, 65, 0, 66, 0] ++ TERMINATOR ++
            [0, 0, 0, 0, 0, 0]) =
          [⟨1, 4, 9, 2, ['A', 'B'], ['A', 'B'], false, false⟩] := by
        simp +decide [extract_text_segments_from_decompressed, fighterScanAux]
      rw [h]
      exact List.mem_singleton.mpr rfl
    exact (claim_C3_length_gate _).1 _ hmem
  · exact (claim_C3_length_gate _).2 13 0 0 (by decide)

/-! ## C6: the acceptance policy of the classifier -/

/-- C6 counterexample: the text `。。。` is classified valid (the
dialogue pattern `[。！？]` fires) although nothing at all remains after
removing whitespace/basic punctuation/line markers, so the claim's
length-condition reading of the policy rejects it. -/
theorem claim_C6_counterexample :
    is_valid_text "。。。".toList = true ∧
    ("。。。".toList.filter fun c => !isBasicPunct c).length = 0 := by
  constructor
  · decide
  · decide

theorem is_japanese_text_eq_ratio (clean : List Char)
    (hstrip : 3 ≤ (pyStrip clean).length) :
    is_japanese_text clean =
      (decide (3 ≤ (clean.filter fun c => !isBasicPunct c).length) &&
       decide (1 ≤ ((clean.filter fun c => !isBasicPunct c).filter pyIsPrintable).length) &&
       decide (((clean.filter fun c => !isBasicPunct c).filter pyIsPrintable).length * 3 ≤
         (((clean.filter fun c => !isBasicPunct c).filter pyIsPrintable).filter
           isJapaneseChar).length * 10)) := by
  have hne : clean ≠ [] := by
    intro h
    subst h
    simp [pyStrip] at hstrip
  unfold is_japanese_text
  rw [if_neg (by
    push_neg
    exact ⟨hne, by omega⟩)]
  dsimp only
  have hcount : (clean.filter fun c => !isBasicPunct c).countP pyIsPrintable =
      ((clean.filter fun c => !isBasicPunct c).filter pyIsPrintable).length :=
    List.countP_eq_length_filter _ _
  have hcount2 : (clean.filter fun c => !isBasicPunct c).countP
        (fun c => pyIsPrintable c && isJapaneseChar c) =
      (((clean.filter fun c => !isBasicPunct c).filter pyIsPrintable).filter
        isJapaneseChar).length := by
    rw [List.filter_filter, ← List.countP_eq_length_filter]
    apply List.countP_congr
    intro a _
    rw [Bool.and_comm]
  by_cases hlen : (clean.filter fun c => !isBasicPunct c).length < 3
  · rw [if_pos hlen]
    have : ¬ 3 ≤ (clean.filter fun c => !isBasicPunct c).length := by omega
    simp [this]
  · rw [if_neg hlen]
    by_cases htot : (clean.filter fun c => !isBasicPunct c).countP pyIsPrintable = 0
    · rw [if_pos htot]
      rw [hcount] at htot
      have hn1 : ¬ 1 ≤ ((clean.filter fun c => !isBasicPunct c).filter pyIsPrintable).length := by
        omega
      rw [decide_eq_false hn1]
      simp
    · rw [if_neg htot]
      rw [hcount] at htot
      have h3 : (3 ≤ (clean.filter fun c => !isBasicPunct c).length) := by omega
      have h1 : (1 ≤ ((clean.filter fun c => !isBasicPunct c).filter pyIsPrintable).length) := by
        omega
      rw [decide_eq_true h3, decide_eq_true h1]
      simp only [Bool.true_and]
      rw [hcount, hcount2]
      exact decide_eq_decide.mpr (by constructor <;> omega)

/-- C6 (amended): `is_valid` holds iff the text stripped of
leading/trailing whitespace has at least 3 characters AND no
junk/binary-noise signature matches AND at least one of: (a) after
removing whitespace/basic punctuation/line markers at least 3 characters
remain, at least one is printable, and source-script characters are at
least 30 percent of the printable ones; (b) the text contains a known
game-term token; (c) the text matches a domain sentence-pattern. -/
theorem claim_C6_policy (clean : List Char) :
    is_valid_text clean = spec_is_valid_amended clean := by
  unfold is_valid_text spec_is_valid_amended
  by_cases hstrip : 3 ≤ (pyStrip clean).length
  · rw [is_japanese_text_eq_ratio clean hstrip]
  · rw [decide_eq_false hstrip]
    simp

/-! ## C9: appending a game term -/

/-- C9 counterexample: the borderline text
`Copyright All Rights Reserve` passes the length and junk checks, has
script-ratio 0 and is invalid; appending the game term `damage`
completes the junk signature `^Copyright.*All Rights Reserved`, so the
result is still invalid — appending a game term does not always flip the
classifier. -/
theorem claim_C9_counterexample :
    is_valid_text "Copyright All Rights Reserve".toList = false ∧
    3 ≤ (pyStrip "Copyright All Rights Reserve".toList).length ∧
    is_likely_filepath_or_junk "Copyright All Rights Reserve".toList = false ∧
    is_japanese_text "Copyright All Rights Reserve".toList = false ∧
    "damage".toList ∈ game_terms ∧
    is_valid_text ("Copyright All Rights Reserve".toList ++ "damage".toList) =
      false := by
  refine ⟨by decide, by decide, by decide, by decide, by decide, by decide⟩

theorem isPrefixOf_self {pat : List Char} : pat.isPrefixOf pat = true := by
  induction pat with
  | nil => rfl
  | cons c t ih => simp [List.isPrefixOf, ih]

theorem containsSub_append_self (pre pat : List Char) :
    containsSub (pre ++ pat) pat = true := by
  induction pre with
  | nil =>
    rw [List.nil_append, containsSub.eq_def]
    rw [if_pos isPrefixOf_self]
  | cons c t ih =>
    rw [List.cons_append, containsSub.eq_def]
    by_cases hp : pat.isPrefixOf (c :: (t ++ pat))
    · rw [if_pos hp]
    · rw [if_neg hp]
      dsimp only
      exact ih

theorem game_terms_shape :
    ∀ t ∈ game_terms, 3 ≤ t.length ∧ t.map pyLower = t ∧
      (pyStrip t).length = t.length := by
  decide

theorem strip_append_ge (s t : List Char) (hne : t ≠ [])
    (hstrip : (pyStrip t).length = t.length) :
    t.length ≤ (pyStrip (s ++ t)).length := by
  unfold pyStrip at hstrip ⊢
  have hd : (t.dropWhile pyIsSpace) = t := by
    have h1 : (t.dropWhile pyIsSpace).length ≤ t.length :=
      (List.dropWhile_suffix _).sublist.length_le
    have h2 : ((t.dropWhile pyIsSpace).reverse.dropWhile pyIsSpace).length ≤
        (t.dropWhile pyIsSpace).length := by
      have := (List.dropWhile_suffix (l := (t.dropWhile pyIsSpace).reverse)
        pyIsSpace).sublist.length_le
      simpa using this
    have : (t.dropWhile pyIsSpace).length = t.length := by
      rw [List.length_reverse] at hstrip
      omega
    exact (List.dropWhile_suffix _).eq_of_length this
  have hr : (t.reverse.dropWhile pyIsSpace) = t.reverse := by
    have h2 : ((t.dropWhile pyIsSpace).reverse.dropWhile pyIsSpace).length ≤
        t.reverse.length := by
      rw [hd]
      exact (List.dropWhile_suffix _).sublist.length_le
    rw [hd] at hstrip
    have : (t.reverse.dropWhile pyIsSpace).length = t.reverse.length := by
      rw [List.length_reverse] at hstrip ⊢
      have := (List.dropWhile_suffix (l := t.reverse) pyIsSpace).sublist.length_le
      rw [List.length_reverse] at this
      omega
    exact (List.dropWhile_suffix _).eq_of_length this
  have step1 : (s ++ t).dropWhile pyIsSpace =
      (s.dropWhile pyIsSpace) ++ t ∨ (s ++ t).dropWhile pyIsSpace = t := by
    rw [List.dropWhile_append]
    by_cases hs : (s.dropWhile pyIsSpace).isEmpty
    · rw [if_pos hs, hd]
      exact Or.inr rfl
    · rw [if_neg hs]
      exact Or.inl rfl
  rcases step1 with h | h
  · rw [h, List.reverse_append]
    rw [List.dropWhile_append]
    by_cases ht : (t.reverse.dropWhile pyIsSpace).isEmpty
    · rw [hr] at ht
      simp at ht
      exact absurd ht hne
    · rw [if_neg ht, hr]
      simp only [List.length_reverse, List.length_append]
      omega
  · rw [h, hr]
    simp

/-- C9 (amended): appending a known game-term token to any string whose
extension still matches no junk signature yields a string the classifier
marks valid (the counterexample shows the junk proviso is necessary: a
game term can complete a junk signature). -/
theorem claim_C9_monotonic (s term : List Char)
    (hterm : term ∈ game_terms)
    (hjunk : is_likely_filepath_or_junk (s ++ term) = false) :
    is_valid_text (s ++ term) = true := by
  obtain ⟨hlen, hlow, hstr⟩ := game_terms_shape term hterm
  have hne : term ≠ [] := by
    intro h
    rw [h] at hlen
    simp at hlen
  have ha : 3 ≤ (pyStrip (s ++ term)).length := by
    have := strip_append_ge s term hne hstr
    omega
  have hb : contains_game_terms (s ++ term) = true := by
    unfold contains_game_terms
    rw [List.any_eq_true]
    refine ⟨term, hterm, ?_⟩
    rw [List.map_append, hlow]
    exact containsSub_append_self _ _
  unfold is_valid_text
  rw [hjunk, hb]
  simp [ha]

/-- C9 witness: appending `vanguard` to the borderline ASCII string
`xy`. -/
theorem claim_C9_monotonic_witness :
    is_valid_text ("xy".toList ++ "vanguard".toList) = true :=
  claim_C9_monotonic "xy".toList "vanguard".toList (by decide) (by decide)

/-! ## Scanner invariants and the fixed-slot patcher -/

theorem es_inv (data : List Nat) :
    ∀ pos, ∀ s ∈ extract_segments data pos,
      pos ≤ s.prefix_pos ∧ s.content_start = s.prefix_pos + 5 ∧
      s.content_end = s.prefix_pos + 5 + 2 * data.getD (s.prefix_pos + 4) 0 ∧
      s.content_end ≤ data.length := by
  intro pos
  induction pos using extract_segments.induct data with
  | case1 q h5 hterm =>
    intro s hs
    rw [es_nil_term data q hterm] at hs
    simp at hs
  | case2 q h5 hterm L ce hce ih =>
    intro s hs
    have hce' : q + 5 + 2 * data.getD (q + 4) 0 ≤ data.length := hce
    rw [es_cons data q h5 hterm hce'] at hs
    rcases List.mem_cons.mp hs with hh | ht
    · subst hh
      exact ⟨le_refl _, rfl, rfl, hce'⟩
    · obtain ⟨hge, a, b, c⟩ := ih s ht
      exact ⟨by omega, a, b, c⟩
  | case3 q h5 hterm L ce hce =>
    intro s hs
    have hce' : ¬ q + 5 + 2 * data.getD (q + 4) 0 ≤ data.length := hce
    rw [es_nil_oob data q hce'] at hs
    simp at hs
  | case4 q h5 =>
    intro s hs
    rw [es_nil_short data q h5] at hs
    simp at hs

theorem es_pairwise (data : List Nat) :
    ∀ pos, (extract_segments data pos).Pairwise
      (fun a b => a.content_end ≤ b.prefix_pos) := by
  intro pos
  induction pos using extract_segments.induct data with
  | case1 q h5 hterm =>
    rw [es_nil_term data q hterm]
    exact List.Pairwise.nil
  | case2 q h5 hterm L ce hce ih =>
    have hce' : q + 5 + 2 * data.getD (q + 4) 0 ≤ data.length := hce
    rw [es_cons data q h5 hterm hce']
    refine List.Pairwise.cons ?_ ih
    intro b hb
    exact (es_inv data _ b hb).1
  | case3 q h5 hterm L ce hce =>
    have hce' : ¬ q + 5 + 2 * data.getD (q + 4) 0 ≤ data.length := hce
    rw [es_nil_oob data q hce']
    exact List.Pairwise.nil
  | case4 q h5 =>
    rw [es_nil_short data q h5]
    exact List.Pairwise.nil

/-- `find_text_segments` and `extract_segments` scan with the same loop
and stop conditions, so they locate the same triples. -/
theorem scanners_agree (data : List Nat) :
    ∀ pos, (extract_segments data pos).map
        (fun s => (s.prefix_pos, s.content_start, s.content_end)) =
      find_text_segments data pos := by
  intro pos
  induction pos using extract_segments.induct data with
  | case1 q h5 hterm =>
    rw [es_nil_term data q hterm, fts_nil_term data q hterm]
    rfl
  | case2 q h5 hterm L ce hce ih =>
    have hce' : q + 5 + 2 * data.getD (q + 4) 0 ≤ data.length := hce
    rw [es_cons data q h5 hterm hce', fts_cons data q h5 hterm hce',
      List.map_cons, ih]
    rfl
  | case3 q h5 hterm L ce hce =>
    have hce' : ¬ q + 5 + 2 * data.getD (q + 4) 0 ≤ data.length := hce
    rw [es_nil_oob data q hce', fts_nil_oob data q hce']
    rfl
  | case4 q h5 =>
    rw [es_nil_short data q h5]
    rw [show find_text_segments data q = [] from by
      rw [find_text_segments]; simp only [dif_neg h5]]
    rfl

theorem applyTr_fields (f : Segment → List Char) (segs : List Segment) :
    ∀ s' ∈ applyTr f segs, ∃ s ∈ segs,
      s'.prefix_pos = s.prefix_pos ∧ s'.content_start = s.content_start ∧
      s'.content_end = s.content_end ∧ s'.is_valid = s.is_valid := by
  intro s' hs'
  unfold applyTr at hs'
  obtain ⟨s, hs, rfl⟩ := List.mem_map.mp hs'
  exact ⟨s, hs, rfl, rfl, rfl, rfl⟩

theorem fitPayload_length (t : List Char) (orig_len : Nat) (h2 : 2 ∣ orig_len) :
    (fitPayload t orig_len).length = orig_len := by
  unfold fitPayload
  have he := utf16leBytes_even t
  dsimp only
  split
  next hlt =>
    rw [List.length_append, padPairs_length]
    omega
  next hge =>
    rw [List.length_take]
    omega

theorem getD_concat_out (buf1 new_raw : List Nat) (cs ce k : Nat)
    (hcs : cs ≤ ce) (hce : ce ≤ buf1.length) (hlenr : new_raw.length = ce - cs)
    (hk : k < cs ∨ ce ≤ k) :
    (buf1.take cs ++ (new_raw ++ buf1.drop ce)).getD k 0 = buf1.getD k 0 := by
  have htl : (buf1.take cs).length = cs := by
    rw [List.length_take]
    omega
  rcases hk with hk | hk
  · rw [List.getD_eq_getElem?_getD, List.getD_eq_getElem?_getD,
      List.getElem?_append_left (by omega), List.getElem?_take_of_lt hk]
  · rw [List.getD_eq_getElem?_getD, List.getD_eq_getElem?_getD,
      List.getElem?_append_right (by omega),
      List.getElem?_append_right (by rw [hlenr]; omega),
      List.getElem?_drop]
    congr 2
    omega

theorem patchOne_length (b : List Nat) (s : Segment)
    (hcs : s.content_start ≤ s.content_end) (hce : s.content_end ≤ b.length)
    (h2 : 2 ∣ (s.content_end - s.content_start)) :
    (patchOne b s).length = b.length := by
  unfold patchOne
  dsimp only
  rw [List.length_append, List.length_append, List.length_take,
    List.length_drop, fitPayload_length _ _ h2, List.length_set]
  omega

theorem patchOne_getD (b : List Nat) (s : Segment) (k : Nat)
    (hcs5 : s.content_start = s.prefix_pos + 5)
    (hcs : s.content_start ≤ s.content_end) (hce : s.content_end ≤ b.length)
    (h2 : 2 ∣ (s.content_end - s.content_start))
    (hout : ¬(s.content_start ≤ k ∧ k < s.content_end)) :
    (patchOne b s).getD k 0 =
      if k = s.prefix_pos + 4 then
        ((s.content_end - s.content_start) / 2) % 256
      else b.getD k 0 := by
  unfold patchOne
  dsimp only
  rw [List.append_assoc]
  rw [getD_concat_out (b.set (s.prefix_pos + 4)
      ((fitPayload s.translation (s.content_end - s.content_start)).length / 2 % 256))
    (fitPayload s.translation (s.content_end - s.content_start))
    s.content_start s.content_end k hcs (by rw [List.length_set]; exact hce)
    (fitPayload_length _ _ h2) (by omega)]
  rw [fitPayload_length _ _ h2]
  by_cases hk : k = s.prefix_pos + 4
  · rw [if_pos hk, hk, List.getD_eq_getElem?_getD,
      List.getElem?_set_self (by omega)]
    rfl
  · rw [if_neg hk, List.getD_eq_getElem?_getD, List.getD_eq_getElem?_getD,
      List.getElem?_set_ne (by omega)]

theorem patch_fold (data : List Nat) (full : List Segment)
    (hinv : ∀ s ∈ full,
      s.content_start = s.prefix_pos + 5 ∧
      s.content_end = s.prefix_pos + 5 + 2 * data.getD (s.prefix_pos + 4) 0 ∧
      s.content_end ≤ data.length ∧ data.getD (s.prefix_pos + 4) 0 < 256) :
    ∀ (ls : List Segment) (b : List Nat), (∀ s ∈ ls, s ∈ full) → b.length = data.length →
      (∀ k, outsidePayloads full k → b.getD k 0 = data.getD k 0) →
      (ls.foldl (fun b s => if s.is_valid then patchOne b s else b) b).length =
        data.length ∧
      (∀ k, outsidePayloads full k →
        (ls.foldl (fun b s => if s.is_valid then patchOne b s else b) b).getD k 0 =
          data.getD k 0) := by
  intro ls
  induction ls with
  | nil =>
    intro b _ hl ha
    exact ⟨hl, ha⟩
  | cons s ls ih =>
    intro b hmem hl ha
    rw [List.foldl_cons]
    by_cases hv : s.is_valid
    · rw [if_pos hv]
      obtain ⟨hcs5, hceq, hcele, hblt⟩ := hinv s (hmem s (List.mem_cons_self s ls))
      have hcs : s.content_start ≤ s.content_end := by omega
      have h2 : 2 ∣ (s.content_end - s.content_start) :=
        ⟨data.getD (s.prefix_pos + 4) 0, by omega⟩
      have hl' : (patchOne b s).length = data.length := by
        rw [patchOne_length b s hcs (by omega) h2, hl]
      refine ih (patchOne b s) (fun t ht => hmem t (List.mem_cons_of_mem s ht))
        hl' ?_
      intro k hout
      have houts : ¬(s.content_start ≤ k ∧ k < s.content_end) :=
        hout s (hmem s (List.mem_cons_self s ls)) hv
      rw [patchOne_getD b s k hcs5 hcs (by omega) h2 houts]
      by_cases hk : k = s.prefix_pos + 4
      · rw [if_pos hk, hk]
        omega
      · rw [if_neg hk]
        exact ha k hout
    · rw [if_neg hv]
      exact ih b (fun t ht => hmem t (List.mem_cons_of_mem s ht)) hl ha

/-- The scanned segments (with any translations attached) satisfy the
patcher's invariants when the buffer holds bytes. -/
theorem applyTr_inv (data : List Nat) (start : Nat) (f : Segment → List Char)
    (hb : ∀ x ∈ data, x < 256) :
    ∀ s ∈ applyTr f (extract_segments data start),
      s.content_start = s.prefix_pos + 5 ∧
      s.content_end = s.prefix_pos + 5 + 2 * data.getD (s.prefix_pos + 4) 0 ∧
      s.content_end ≤ data.length ∧ data.getD (s.prefix_pos + 4) 0 < 256 := by
  intro s' hs'
  obtain ⟨s, hs, hp, hcs, hce, -⟩ := applyTr_fields f _ s' hs'
  obtain ⟨-, a, b, c⟩ := es_inv data start s hs
  have hidx : s.prefix_pos + 4 < data.length := by omega
  have hbyte : data.getD (s.prefix_pos + 4) 0 < 256 := by
    rw [List.getD_eq_getElem data 0 hidx]
    exact hb _ (List.getElem_mem hidx)
  rw [hp, hcs, hce]
  exact ⟨by omega, by omega, by omega, hbyte⟩

/-- Master agreement: the fixed-slot patcher leaves the buffer length
unchanged and every byte outside the valid segments' content windows
unchanged (the length byte it rewrites receives its original value). -/
theorem patch_segments_agree (data : List Nat) (start : Nat)
    (f : Segment → List Char) (hb : ∀ x ∈ data, x < 256) :
    (patch_segments data (applyTr f (extract_segments data start))).length =
      data.length ∧
    ∀ k, outsidePayloads (applyTr f (extract_segments data start)) k →
      (patch_segments data (applyTr f (extract_segments data start))).getD k 0 =
        data.getD k 0 := by
  unfold patch_segments
  exact patch_fold data (applyTr f (extract_segments data start))
    (applyTr_inv data start f hb)
    (applyTr f (extract_segments data start)).reverse data
    (fun t ht => List.mem_reverse.mp ht) rfl (fun k _ => rfl)

theorem es_disjoint (data : List Nat) (start : Nat) :
    ∀ s ∈ extract_segments data start, ∀ t ∈ extract_segments data start,
      s ≠ t → s.content_end ≤ t.prefix_pos ∨ t.content_end ≤ s.prefix_pos := by
  have hp : (extract_segments data start).Pairwise
      (fun a b => a.content_end ≤ b.prefix_pos ∨ b.content_end ≤ a.prefix_pos) :=
    (es_pairwise data start).imp (fun h => Or.inl h)
  intro s hs t ht hne
  exact hp.forall (fun a b h => h.symm) hs ht hne

theorem header_outside (data : List Nat) (start : Nat) (f : Segment → List Char) :
    ∀ s' ∈ applyTr f (extract_segments data start), ∀ i, i < 5 →
      outsidePayloads (applyTr f (extract_segments data start))
        (s'.prefix_pos + i) := by
  intro s' hs' i hi t' ht' hval
  obtain ⟨s, hs, hp, -, -, -⟩ := applyTr_fields f _ s' hs'
  obtain ⟨t, ht, tp, tcs, tce, -⟩ := applyTr_fields f _ t' ht'
  obtain ⟨-, scs, sce, -⟩ := es_inv data start s hs
  obtain ⟨-, tcs2, tce2, -⟩ := es_inv data start t ht
  rw [tcs, tce, hp]
  by_cases heq : s = t
  · subst heq
    rintro ⟨h1, -⟩
    rw [tcs2] at h1
    omega
  · rcases es_disjoint data start s hs t ht heq with h | h
    · rintro ⟨h1, h2⟩
      omega
    · rintro ⟨h1, h2⟩
      omega

/-- C10: in the fixed-slot patcher, for every valid segment being
patched all 5 header bytes are byte-identical between input and output
buffer: the 4 metadata bytes are never written, and the recomputed unit
count written into the length byte equals the original declared count
because the fitted payload spans exactly the original even byte span. -/
theorem claim_C10_headers (data : List Nat) (start : Nat)
    (f : Segment → List Char) (hb : ∀ x ∈ data, x < 256) :
    ∀ s ∈ applyTr f (extract_segments data start), s.is_valid = true →
      ∀ i, i < 5 →
        (patch_segments data (applyTr f (extract_segments data start))).getD
            (s.prefix_pos + i) 0 =
          data.getD (s.prefix_pos + i) 0 := by
  intro s hs _ i hi
  exact (patch_segments_agree data start f hb).2 _
    (header_outside data start f s hs i hi)

/-- C10 witness: a buffer whose single valid segment has nonzero
metadata bytes `7 7 7 7` and declared count 3, patched with the
translation `AB`; the length byte (offset 4) is unchanged. -/
theorem claim_C10_headers_witness :
    (patch_segments ([7, 7, 7, 7, 3, 0x42, 0x30, 0x44, 0x30, 0x46, 0x30] ++
        TERMINATOR)
        (applyTr (fun _ => "AB".toList)
          (extract_segments
            ([7, 7, 7, 7, 3, 0x42, 0x30, 0x44, 0x30, 0x46, 0x30] ++
              TERMINATOR) 0))).getD (0 + 4) 0 =
      ([7, 7, 7, 7, 3, 0x42, 0x30, 0x44, 0x30, 0x46, 0x30] ++
        TERMINATOR).getD (0 + 4) 0 := by
  have hseg : extract_segments
      ([7, 7, 7, 7, 3, 0x42, 0x30, 0x44, 0x30, 0x46, 0x30] ++ TERMINATOR) 0 =
      [⟨0, 5, 11, "あいう".toList, "あいう".toList, [], true⟩] := by
    simp +decide [extract_segments]
  refine claim_C10_headers
    ([7, 7, 7, 7, 3, 0x42, 0x30, 0x44, 0x30, 0x46, 0x30] ++ TERMINATOR) 0
    (fun _ => "AB".toList) (by decide)
    ⟨0, 5, 11, "あいう".toList, "あいう".toList, "AB".toList, true⟩ ?_
    (by decide) 4 (by decide)
  rw [hseg]
  unfold applyTr
  rw [List.map_cons]
  exact List.mem_singleton.mpr rfl

/-! ## C5: re-scanning the patched buffer -/

theorem pySlice_getElem (l : List Nat) (a b i : Nat)
    (h : i < (pySlice l a b).length) :
    (pySlice l a b).getD i 0 = l.getD (a + i) 0 := by
  unfold pySlice at h ⊢
  have h1 : a + i < (l.take b).length := by
    rw [List.length_drop] at h
    omega
  have h2 : a + i < b := by
    rw [List.length_take] at h1
    omega
  rw [List.getD_eq_getElem?_getD, List.getD_eq_getElem?_getD,
    List.getElem?_drop, List.getElem?_take_of_lt h2]

theorem pySlice_congr (buf' data : List Nat) (a b : Nat)
    (hlen : buf'.length = data.length)
    (hag : ∀ k, a ≤ k → k < b → buf'.getD k 0 = data.getD k 0) :
    pySlice buf' a b = pySlice data a b := by
  unfold pySlice
  apply List.ext_getElem?
  intro n
  have hlb : ((buf'.take b).drop a).length = ((data.take b).drop a).length := by
    rw [List.length_drop, List.length_drop, List.length_take,
      List.length_take, hlen]
  by_cases hin : n < ((data.take b).drop a).length
  · have hnb : a + n < b := by
      rw [List.length_drop, List.length_take] at hin
      omega
    have hnd : a + n < data.length := by
      rw [List.length_drop, List.length_take] at hin
      omega
    have hnb' : a + n < buf'.length := by omega
    rw [List.getElem?_drop, List.getElem?_drop,
      List.getElem?_take_of_lt hnb, List.getElem?_take_of_lt hnb,
      List.getElem?_eq_getElem hnb', List.getElem?_eq_getElem hnd]
    have hv := hag (a + n) (by omega) hnb
    rw [List.getD_eq_getElem buf' 0 hnb', List.getD_eq_getElem data 0 hnd] at hv
    exact congrArg some hv
  · rw [List.getElem?_eq_none (by rw [hlb]; omega), List.getElem?_eq_none (by omega)]

/-- Re-scanning a buffer that agrees with the original outside the
payloads located from a given position yields the same segment
offsets. -/
theorem rescan (data buf' : List Nat) (hlen : buf'.length = data.length) :
    ∀ pos, (∀ k, pos ≤ k → outsidePayloads (extract_segments data pos) k →
        buf'.getD k 0 = data.getD k 0) →
      (extract_segments buf' pos).map
          (fun s => (s.prefix_pos, s.content_start, s.content_end)) =
        (extract_segments data pos).map
          (fun s => (s.prefix_pos, s.content_start, s.content_end)) := by
  intro pos
  induction pos using extract_segments.induct data with
  | case1 q h5 hterm =>
    intro hagree
    have hout : ∀ k, q ≤ k → outsidePayloads (extract_segments data q) k := by
      intro k _
      rw [es_nil_term data q hterm]
      intro t ht
      simp at ht
    have hsl : pySlice buf' q (q + 5) = pySlice data q (q + 5) :=
      pySlice_congr buf' data q (q + 5) hlen
        (fun k hk1 _ => hagree k hk1 (hout k hk1))
    rw [es_nil_term data q hterm, es_nil_term buf' q (by rw [hsl]; exact hterm)]
  | case2 q h5 hterm L ce hce ih =>
    intro hagree
    have hce' : q + 5 + 2 * data.getD (q + 4) 0 ≤ data.length := hce
    have hheads : ∀ k, q ≤ k → k < q + 5 →
        outsidePayloads (extract_segments data q) k := by
      intro k hk1 hk2
      rw [es_cons data q h5 hterm hce']
      intro t ht hv
      rcases List.mem_cons.mp ht with hh | htt
      · subst hh
        have hcs : (mkScanSeg data q).content_start = q + 5 := rfl
        rintro ⟨h1, -⟩
        omega
      · obtain ⟨hge, hcs, -, -⟩ := es_inv data _ t htt
        rintro ⟨h1, -⟩
        omega
    have hsl : pySlice buf' q (q + 5) = pySlice data q (q + 5) :=
      pySlice_congr buf' data q (q + 5) hlen
        (fun k hk1 hk2 => hagree k hk1 (hheads k hk1 hk2))
    have hL : buf'.getD (q + 4) 0 = data.getD (q + 4) 0 :=
      hagree (q + 4) (by omega) (hheads (q + 4) (by omega) (by omega))
    have hce2 : q + 5 + 2 * buf'.getD (q + 4) 0 ≤ buf'.length := by
      rw [hL, hlen]
      exact hce'
    rw [es_cons data q h5 hterm hce',
      es_cons buf' q (by rw [hlen]; exact h5) (by rw [hsl]; exact hterm) hce2]
    rw [List.map_cons, List.map_cons]
    have hceq : q + 5 + 2 * buf'.getD (q + 4) 0 =
        q + 5 + 2 * data.getD (q + 4) 0 := by rw [hL]
    congr 1
    · show (q, q + 5, q + 5 + 2 * buf'.getD (q + 4) 0) =
        (q, q + 5, q + 5 + 2 * data.getD (q + 4) 0)
      rw [hceq]
    · rw [hceq]
      apply ih
      intro k hk hout
      apply hagree k (by omega)
      rw [es_cons data q h5 hterm hce']
      intro t ht hv
      rcases List.mem_cons.mp ht with hh | htt
      · subst hh
        have hcee : (mkScanSeg data q).content_end =
            q + 5 + 2 * data.getD (q + 4) 0 := rfl
        rintro ⟨-, h2⟩
        omega
      · exact hout t htt hv
  | case3 q h5 hterm L ce hce =>
    intro hagree
    have hce' : ¬ q + 5 + 2 * data.getD (q + 4) 0 ≤ data.length := hce
    have hout : ∀ k, q ≤ k → outsidePayloads (extract_segments data q) k := by
      intro k _
      rw [es_nil_oob data q hce']
      intro t ht
      simp at ht
    have hL : buf'.getD (q + 4) 0 = data.getD (q + 4) 0 :=
      hagree (q + 4) (by omega) (hout (q + 4) (by omega))
    rw [es_nil_oob data q hce', es_nil_oob buf' q (by rw [hL, hlen]; exact hce')]
  | case4 q h5 =>
    intro _
    rw [es_nil_short data q h5, es_nil_short buf' q (by rw [hlen]; exact h5)]

theorem outsidePayloads_applyTr (data : List Nat) (start : Nat)
    (f : Segment → List Char) (k : Nat)
    (h : outsidePayloads (extract_segments data start) k) :
    outsidePayloads (applyTr f (extract_segments data start)) k := by
  intro t' ht' hv
  obtain ⟨t, ht, -, hcs, hce, hval⟩ := applyTr_fields f _ t' ht'
  rw [hcs, hce]
  exact h t ht (by rw [← hval]; exact hv)

/-- C5: fixed-slot span invariant — patching any translations into the
valid segments leaves every scanned segment of the output buffer with
exactly the offsets (hence the byte span `content_end - content_start`)
it had in the input buffer. -/
theorem claim_C5_fixed_slot (data : List Nat) (start : Nat)
    (f : Segment → List Char) (hb : ∀ x ∈ data, x < 256) :
    (extract_segments
        (patch_segments data (applyTr f (extract_segments data start)))
        start).map (fun s => (s.prefix_pos, s.content_start, s.content_end)) =
      (extract_segments data start).map
        (fun s => (s.prefix_pos, s.content_start, s.content_end)) := by
  obtain ⟨hlen, hagree⟩ := patch_segments_agree data start f hb
  exact rescan data _ hlen start
    (fun k _ hout => hagree k (outsidePayloads_applyTr data start f k hout))

/-- C5 witness: the 3-unit segment patched with a 1-character
translation keeps its `(0, 5, 11)` offsets. -/
theorem claim_C5_fixed_slot_witness :
    (extract_segments
        (patch_segments ([7, 7, 7, 7, 3, 0x42, 0x30, 0x44, 0x30, 0x46, 0x30] ++
            TERMINATOR)
          (applyTr (fun _ => "A".toList)
            (extract_segments
              ([7, 7, 7, 7, 3, 0x42, 0x30, 0x44, 0x30, 0x46, 0x30] ++
                TERMINATOR) 0))) 0).map
        (fun s => (s.prefix_pos, s.content_start, s.content_end)) =
      (extract_segments
        ([7, 7, 7, 7, 3, 0x42, 0x30, 0x44, 0x30, 0x46, 0x30] ++ TERMINATOR)
        0).map (fun s => (s.prefix_pos, s.content_start, s.content_end)) :=
  claim_C5_fixed_slot
    ([7, 7, 7, 7, 3, 0x42, 0x30, 0x44, 0x30, 0x46, 0x30] ++ TERMINATOR) 0
    (fun _ => "A".toList) (by decide)

/-! ## C8: sentinel preservation -/

theorem fts_nil_sp (data : List Nat) (x : Nat)
    (h : find_text_segments data x = []) : scanPositions data x = [x] := by
  by_cases h5 : x + 5 ≤ data.length
  · by_cases hterm : pySlice data x (x + 5) = TERMINATOR
    · exact sp_single_term data x hterm
    · by_cases hce : x + 5 + 2 * data.getD (x + 4) 0 ≤ data.length
      · rw [fts_cons data x h5 hterm hce] at h
        exact absurd h (by simp)
      · exact sp_single_oob data x hce
  · exact sp_single_short data x h5

theorem buildSegments_term_suffix (data : List Nat) (tr : Nat → List Char)
    (pos : Nat) (hterm : pySlice data pos (pos + 5) = TERMINATOR) :
    ∀ q, pos ∈ scanPositions data q → find_text_segments data q ≠ [] →
      ∀ i body, buildSegments data tr (find_text_segments data q) i = some body →
      ∃ core, body = core ++ pySlice data pos data.length := by
  intro q
  induction q using find_text_segments.induct data with
  | case1 x h5 hterm2 =>
    intro _ hne
    exact absurd (fts_nil_term data x hterm2) hne
  | case2 x h5 hterm2 L ce hce ih =>
    intro hreach hne i body hbuild
    have hce' : x + 5 + 2 * data.getD (x + 4) 0 ≤ data.length := hce
    have ih' : pos ∈ scanPositions data (x + 5 + 2 * data.getD (x + 4) 0) →
        find_text_segments data (x + 5 + 2 * data.getD (x + 4) 0) ≠ [] →
        ∀ i body, buildSegments data tr
            (find_text_segments data (x + 5 + 2 * data.getD (x + 4) 0)) i =
          some body →
        ∃ core, body = core ++ pySlice data pos data.length := ih
    rw [sp_cons data x h5 hterm2 hce'] at hreach
    rcases List.mem_cons.mp hreach with heq | hmem
    · exact absurd (heq ▸ hterm) hterm2
    · rw [fts_cons data x h5 hterm2 hce'] at hbuild
      rcases hrest : find_text_segments data (x + 5 + 2 * data.getD (x + 4) 0)
        with _ | ⟨s2, rest'⟩
      · have hsp := fts_nil_sp data _ hrest
        rw [hsp, List.mem_singleton] at hmem
        rw [hrest] at hbuild
        simp only [buildSegments] at hbuild
        obtain ⟨seg, -, hbody⟩ := Option.map_eq_some'.mp hbuild
        exact ⟨seg, by rw [← hbody, hmem]⟩
      · rw [hrest] at hbuild
        simp only [buildSegments] at hbuild
        cases hif : (if tr i ≠ [] then encode_text_segment (tr i)
            else some (pySlice data x (x + 5 + 2 * data.getD (x + 4) 0))) with
        | none =>
          rw [hif] at hbuild
          exact absurd hbuild (by simp)
        | some seg =>
          rw [hif] at hbuild
          cases htail : buildSegments data tr (s2 :: rest') (i + 1) with
          | none =>
            rw [htail] at hbuild
            exact absurd hbuild (by simp)
          | some tailb =>
            rw [htail] at hbuild
            have hb2 : seg ++ pySlice data (x + 5 + 2 * data.getD (x + 4) 0)
                s2.1 ++ tailb = body := by
              simpa using hbuild
            obtain ⟨core, hcore⟩ := ih' hmem (by rw [hrest]; simp) (i + 1)
              tailb (by rw [hrest]; exact htail)
            refine ⟨seg ++ pySlice data (x + 5 + 2 * data.getD (x + 4) 0)
              s2.1 ++ core, ?_⟩
            rw [← hb2, hcore]
            simp [List.append_assoc]
  | case3 x h5 hterm2 L ce hce =>
    intro _ hne
    have hce' : ¬ x + 5 + 2 * data.getD (x + 4) 0 ≤ data.length := hce
    exact absurd (fts_nil_oob data x hce') hne
  | case4 x h5 =>
    intro _ hne
    refine absurd ?_ hne
    rw [find_text_segments]
    simp only [dif_neg h5]

/-- C8 (amended): when the scan actually reaches the sentinel's offset
(no earlier candidate's content window swallows it — see the
counterexample), the sentinel and every byte after it are preserved in
both modes: no segment starts at or after the sentinel's offset, the
resizing encoder's output ends with the bytes from the sentinel on, and
the fixed-slot patcher leaves every byte from the sentinel on
unchanged. -/
theorem claim_C8_sentinel (data : List Nat) (pos : Nat) (tr : Nat → List Char)
    (f : Segment → List Char) (hb : ∀ x ∈ data, x < 256)
    (hreach : pos ∈ scanPositions data 0)
    (hterm : pySlice data pos (pos + 5) = TERMINATOR) :
    (∀ s ∈ find_text_segments data 0, s.1 < pos ∧ s.2.2 ≤ pos) ∧
    (∀ out, inject_translations data tr = some out →
      ∃ body, out = body ++ pySlice data pos data.length) ∧
    (∀ k, pos ≤ k →
      (patch_segments data (applyTr f (extract_segments data 0))).getD k 0 =
        data.getD k 0) := by
  have hesplit := extract_split data pos 0 hreach
  have hes_nil : extract_segments data pos = [] := es_nil_term data pos hterm
  rw [hes_nil, List.append_nil] at hesplit
  have hbound : ∀ s ∈ extract_segments data 0, s.content_end ≤ pos := by
    intro s hs
    rw [hesplit] at hs
    exact eu_bound data pos 0 hreach s hs
  refine ⟨?_, ?_, ?_⟩
  · intro t ht
    rw [← scanners_agree data 0] at ht
    obtain ⟨s, hsmem, hst⟩ := List.mem_map.mp ht
    obtain ⟨-, hcs, hceq, -⟩ := es_inv data 0 s hsmem
    have hce := hbound s hsmem
    rw [← hst]
    dsimp only
    exact ⟨by omega, by omega⟩
  · intro out hout
    unfold inject_translations at hout
    rcases hfts : find_text_segments data 0 with _ | ⟨⟨p0, cs0, ce0⟩, tail⟩
    · rw [hfts] at hout
      have hsp := fts_nil_sp data 0 hfts
      rw [hsp] at hreach
      simp at hreach
      have hdata : out = data := by simpa using hout.symm
      refine ⟨[], ?_⟩
      rw [hdata, hreach, pySlice_zero_length, List.nil_append]
    · rw [hfts] at hout
      obtain ⟨body, hbs, hbody⟩ := Option.map_eq_some'.mp hout
      obtain ⟨core, hcore⟩ := buildSegments_term_suffix data tr pos hterm 0
        hreach (by rw [hfts]; simp) 1 body (by rw [hfts]; exact hbs)
      refine ⟨pySlice data 0 p0 ++ core, ?_⟩
      rw [← hbody, hcore, List.append_assoc]
  · intro k hk
    apply (patch_segments_agree data 0 f hb).2
    intro t' ht' hv
    obtain ⟨t, htm, -, hcs, hce, -⟩ := applyTr_fields f _ t' ht'
    rw [hcs, hce]
    have := hbound t htm
    rintro ⟨-, h2⟩
    omega

/-- C8 counterexample: the sentinel occurs at offset 5, but a bogus
candidate at offset 0 (length byte 3) swallows it inside its content
window, so the scanner never examines offset 5 and registers a segment
at offset 11 — at an offset past the sentinel's. -/
theorem claim_C8_counterexample :
    pySlice [0, 0, 0, 0, 3, 255, 255, 255, 255, 0, 65, 0, 0, 0, 0, 1, 65, 0]
        5 10 = TERMINATOR ∧
    (11, 16, 18) ∈ find_text_segments
      [0, 0, 0, 0, 3, 255, 255, 255, 255, 0, 65, 0, 0, 0, 0, 1, 65, 0] 0 := by
  constructor
  · decide
  · have h : find_text_segments
        [0, 0, 0, 0, 3, 255, 255, 255, 255, 0, 65, 0, 0, 0, 0, 1, 65, 0] 0 =
        [(0, 5, 11), (11, 16, 18)] := by
      simp +decide [find_text_segments]
    rw [h]
    decide

/-- C8 witness: one segment, the sentinel at offset 7, trailing bytes
`9 9`; resizing injection of `AB` and fixed-slot patching of `Z` both
leave the sentinel and everything after it intact. -/
theorem claim_C8_sentinel_witness :
    (((0 : Nat), (5 : Nat), (7 : Nat)).1 < 7 ∧
      ((0 : Nat), (5 : Nat), (7 : Nat)).2.2 ≤ 7) ∧
    (∃ body, ([0, 0, 0, 0, 2, 65, 0, 66, 0] ++ TERMINATOR ++ [9, 9] : List Nat) =
      body ++ pySlice ([0, 0, 0, 0, 1, 65, 0] ++ TERMINATOR ++ [9, 9]) 7
        ([0, 0, 0, 0, 1, 65, 0] ++ TERMINATOR ++ [9, 9] : List Nat).length) ∧
    (patch_segments ([0, 0, 0, 0, 1, 65, 0] ++ TERMINATOR ++ [9, 9])
        (applyTr (fun _ => "Z".toList)
          (extract_segments
            ([0, 0, 0, 0, 1, 65, 0] ++ TERMINATOR ++ [9, 9]) 0))).getD 9 0 =
      ([0, 0, 0, 0, 1, 65, 0] ++ TERMINATOR ++ [9, 9] : List Nat).getD 9 0 := by
  have hthm := claim_C8_sentinel ([0, 0, 0, 0, 1, 65, 0] ++ TERMINATOR ++ [9, 9])
    7 (fun i => if i = 1 then "AB".toList else []) (fun _ => "Z".toList)
    (by decide)
    (by
      have h : scanPositions ([0, 0, 0, 0, 1, 65, 0] ++ TERMINATOR ++ [9, 9]) 0 =
          [0, 7] := by
        simp +decide [scanPositions]
      rw [h]
      decide)
    (by decide)
  refine ⟨?_, ?_, hthm.2.2 9 (by omega)⟩
  · apply hthm.1
    have h : find_text_segments
        ([0, 0, 0, 0, 1, 65, 0] ++ TERMINATOR ++ [9, 9]) 0 = [(0, 5, 7)] := by
      simp +decide [find_text_segments]
    rw [h]
    decide
  · apply hthm.2.1
    have hf : find_text_segments
        ([0, 0, 0, 0, 1, 65, 0] ++ TERMINATOR ++ [9, 9]) 0 = [(0, 5, 7)] := by
      simp +decide [find_text_segments]
    unfold inject_translations
    rw [hf]
    decide

end RTZ
